import Mathlib

/-!
Verification of the language-runtime core of the ucore-x64 Go port.

Shallow embedding, translated from the repository sources:

* `runtime·lock` / `runtime·unlock`, `runtime·usemacquire` / `runtime·usemrelease`,
  `runtime·noteclear` / `runtime·notewakeup` / `runtime·notesleep`
  — src/go/src/pkg/runtime/ucoresmp/thread.c
* the `time.sleep` helper — pkg/time (appended to the same source file)
* `runtime·SysAlloc` — the ucoresmp memory layer
* the finalizer hash table (`addfintab`, `lookfintab`, `runtime·addfinalizer`,
  `runtime·getfinalizer`) — src/go/src/pkg/runtime/mfinal.c
* the channel operations — modelled from the spec (chan.c is not in src/)
* the fan-in scenario of testsuit/peter.go

Machine integers are modelled as `Nat`/`Int` with explicit two's-complement
wrapping where the C code performs 32- or 64-bit arithmetic.
-/

set_option maxRecDepth 4000

/-- 32-bit wrapping fetch-and-add: the value of a `uint32` cell after
`runtime·xadd(&cell, d)`, which returns this new value. -/
def xadd32 (x : Nat) (d : Int) : Nat :=
  (((x : Int) + d) % (2 ^ 32 : Int)).toNat

/-- Reinterpret a `uint32` value (a `Nat` below `2^32`) as a signed `int32`,
as the `(int32)` casts in thread.c do. -/
def asInt32 (x : Nat) : Int :=
  if x < 2 ^ 31 then (x : Int) else (x : Int) - 2 ^ 32

/-- Two's-complement normalization of an `int64` arithmetic result, as Go's
wrapping `int64` addition produces. -/
def norm64 (x : Int) : Int :=
  (x + 2 ^ 63) % 2 ^ 64 - 2 ^ 63

/-! ## Mutex (`runtime·lock` / `runtime·unlock`, ucoresmp/thread.c)

The three-state constants below appear in the enum at the top of
ucoresmp/thread.c; the ucoresmp lock itself, however, drives `l->key` as a
wrapping counter of holders plus waiters. -/

def MUTEX_UNLOCKED : Nat := 0
def MUTEX_LOCKED : Nat := 1
def MUTEX_SLEEPING : Nat := 2

/-- The `Lock` cell: the `uint32 key` counter, and whether the kernel
semaphore `l->sema` has been lazily allocated (`initsema`). -/
structure Lock where
  key : Nat
  sema : Bool
deriving DecidableEq

namespace runtime

/-- Embeds `runtime·lock`: `runtime·xadd(&l->key, 1)`; when the new value
exceeds 1 someone else holds the lock, so the kernel semaphore is allocated if
needed and `runtime·sem_wait` parks the caller.  The returned flag records
whether the caller parked on the semaphore. -/
def lock (l : Lock) : Lock × Bool :=
  let k := xadd32 l.key 1
  if 1 < k then ({ key := k, sema := true }, true)
  else ({ key := k, sema := l.sema }, false)

/-- Embeds `runtime·unlock`: `runtime·xadd(&l->key, -1)`; when the new value
is still positive a waiter remains, so `runtime·sem_post` wakes exactly one.
The returned flag records whether one waiter was woken. -/
def unlock (l : Lock) : Lock × Bool :=
  let k := xadd32 l.key (-1)
  if 0 < k then ({ key := k, sema := true }, true)
  else ({ key := k, sema := l.sema }, false)

end runtime

/-- One step of a lock trace: `true` is a `runtime·lock`, `false` a
`runtime·unlock`; the event list records, per operation, whether the kernel
semaphore was touched (park for a lock, single wake for an unlock). -/
def runLock : List Bool → Lock → Lock × List Bool
  | [], l => (l, [])
  | true :: ops, l =>
    let s := runtime.lock l
    let r := runLock ops s.1
    (r.1, s.2 :: r.2)
  | false :: ops, l =>
    let s := runtime.unlock l
    let r := runLock ops s.1
    (r.1, s.2 :: r.2)

/-- A trace is admissible from key value `k` when no unlock outruns the locks
before it (the balanced usage under which the runtime calls the pair). -/
def lockOk : Nat → List Bool → Bool
  | _, [] => true
  | k, true :: ops => lockOk (k + 1) ops
  | k, false :: ops => decide (1 ≤ k) && lockOk (k - 1) ops

/-- Number of lock operations in a trace. -/
def nLocks (ops : List Bool) : Nat := ops.countP (fun b => b = true)

/-- Number of unlock operations in a trace. -/
def nUnlocks (ops : List Bool) : Nat := ops.countP (fun b => b = false)

/-! ## User-level semaphore (`runtime·usemacquire` / `runtime·usemrelease`) -/

/-- The `Usema` cell from thread.c: the `uint32 u` user-space counter and
whether the fallback kernel semaphore `s->k` has been lazily allocated. -/
structure Usema where
  u : Nat
  k : Bool
deriving DecidableEq

namespace runtime

/-- Embeds `runtime·usemacquire`: `(int32)runtime·xadd(&s->u, -1) < 0` means
it is time to block, so allocate the kernel semaphore if needed and
`runtime·sem_wait` on it.  The flag records whether the kernel was entered. -/
def usemacquire (s : Usema) : Usema × Bool :=
  if asInt32 (xadd32 s.u (-1)) < 0 then ({ u := xadd32 s.u (-1), k := true }, true)
  else ({ u := xadd32 s.u (-1), k := s.k }, false)

/-- Embeds `runtime·usemrelease`: `(int32)runtime·xadd(&s->u, 1) <= 0` means a
blocked acquirer exists, so `runtime·sem_post` the kernel semaphore.  The flag
records whether the kernel was entered. -/
def usemrelease (s : Usema) : Usema × Bool :=
  if asInt32 (xadd32 s.u 1) ≤ 0 then ({ u := xadd32 s.u 1, k := true }, true)
  else ({ u := xadd32 s.u 1, k := s.k }, false)

end runtime

/-! ## One-time notifications (`Note`, thread.c) -/

/-- The `Note` of the ucoresmp port: the `int32 wakeup` flag and the backing
`Usema sema` used by `runtime·notesleep` / `runtime·notewakeup`. -/
structure Note where
  wakeup : Bool
  sema : Usema
deriving DecidableEq

namespace runtime

/-- Modelled from the spec: `runtime·noteclear` stores 0 to `n->state`; the
`Note` struct declaration (runtime.h) is not in src/, and per the spec the
clear "resets" the one-shot event, the `state` word aliasing the `wakeup`
flag at the start of the struct while the semaphore words are untouched. -/
def noteclear (n : Note) : Note :=
  { n with wakeup := false }

/-- Embeds `runtime·notewakeup`: set `n->wakeup = 1`, then
`runtime·usemrelease(&n->sema)`.  The flag records a kernel post. -/
def notewakeup (n : Note) : Note × Bool :=
  let s := runtime.usemrelease n.sema
  ({ wakeup := true, sema := s.1 }, s.2)

/-- Embeds `runtime·notesleep`'s loop `while(!n->wakeup)
usemacquire(&n->sema)` against an environment schedule: `arrive f` tells
whether some other thread performs `runtime·notewakeup` during the loop
iteration executed at fuel level `f`.  `none` means the loop was still
spinning/blocked when the fuel ran out — with no wakeup ever arriving it
models `runtime·notesleep` never returning. -/
def notesleepRun (arrive : Nat → Bool) : Nat → Note → Option Note
  | 0, _ => none
  | fuel + 1, n =>
    if n.wakeup then some n
    else
      let n1 : Note := { n with sema := (runtime.usemacquire n.sema).1 }
      let n2 := if arrive fuel then (runtime.notewakeup n1).1 else n1
      notesleepRun arrive fuel n2

end runtime

/-! ## `time.sleep` (pkg/time, appended to thread.c) -/

namespace time

/-- Embeds the loop of pkg/time's `sleep`: while `t < end`, call
`sysSleep(end - t)` and refresh `t = Nanoseconds()`.  `clock i` is the value
the `i`-th call to `Nanoseconds()` yields (an arbitrary int64), `errAt i`
whether the `i`-th `sysSleep` fails (in which case the Go code returns
`(0, err)`, modelled as `Except.error ()`).  `none` means the loop had not
returned within `fuel` iterations. -/
def sleepAux (clock : Nat → Int) (errAt : Nat → Bool) (endT : Int) :
    Nat → Nat → Int → Option (Except Unit Int)
  | 0, _, _ => none
  | fuel + 1, i, t =>
    if t < endT then
      if errAt i then some (Except.error ())
      else sleepAux clock errAt endT fuel (i + 1) (norm64 (clock i))
    else some (Except.ok t)

/-- Embeds `sleep(t, ns)`: `end := t + ns` in wrapping int64 arithmetic, then
the re-sleeping loop. -/
def sleep (clock : Nat → Int) (errAt : Nat → Bool) (fuel : Nat) (t ns : Int) :
    Option (Except Unit Int) :=
  sleepAux clock errAt (norm64 (t + ns)) fuel 0 t

end time

/-! ## `runtime·SysAlloc` (ucoresmp memory layer) -/

namespace runtime

/-- Embeds `runtime·memclr(p, n)` on a byte memory: bytes in `[p, p+n)`
become 0. -/
def memclr (mem : Nat → Nat) (p n : Nat) : Nat → Nat :=
  fun a => if p ≤ a ∧ a < p + n then 0 else mem a

end runtime

/-- Allocator-visible machine state: the byte memory and the `mstats.sys`
counter `runtime·SysAlloc` bumps. -/
structure MemState where
  mem : Nat → Nat
  sys : Nat

namespace runtime

/-- Embeds `runtime·SysAlloc(n)`: `mstats.sys += n`, `runtime·mmap` maps `n`
bytes (the address the kernel picks is the `mmapAddr` oracle), and
`runtime·memclr(p, n)` clears them; returns the new state and the block. -/
def SysAlloc (st : MemState) (mmapAddr : Nat) (n : Nat) : MemState × Nat :=
  ({ mem := runtime.memclr st.mem mmapAddr n, sys := st.sys + n }, mmapAddr)

end runtime

/-- Allocation flags of the general allocator entry, per the spec. -/
structure AllocFlags where
  no_pointers : Bool
  no_zero : Bool
  no_profile : Bool

namespace runtime

/-- Modelled from the spec: the general allocator entry (malloc.goc is not in
src/) — "Flags passed at allocation: no_pointers (scan omitted), no_zero
(caller initializes), no_profile (skip sample). Zeroing otherwise is
guaranteed."  The block the allocator hands out at `addr` is cleared unless
`no_zero` is passed. -/
def alloc (st : MemState) (addr n : Nat) (flags : AllocFlags) : MemState × Nat :=
  if flags.no_zero then (st, addr)
  else ({ st with mem := runtime.memclr st.mem addr n }, addr)

end runtime

/-! ## Channels (modelled from the spec; runtime chan.c is not in src/) -/

/-- Modelled from the spec: the channel data model of section 4.8 — element
buffer ring (here the FIFO list of its live contents), FIFO of blocked
senders with their values, FIFO of blocked receivers, capacity and closed
flag.  Tasks are identified by numeric ids. -/
structure GoChan (α : Type) where
  cap : Nat
  buf : List α
  sendq : List (Nat × α)
  recvq : List Nat
  closed : Bool
deriving DecidableEq

/-- Outcome of a send: value handed directly to a waiting receiver, value
buffered, sender enqueued and blocked, or the fatal "send on closed
channel" error. -/
inductive SendOut (α : Type) where
  | delivered (tid : Nat) (v : α)
  | buffered
  | blocked
  | fatal
deriving DecidableEq

/-- Outcome of a receive: a value with the "ok" indicator, or the receiver
enqueued and blocked. -/
inductive RecvOut (α : Type) where
  | got (v : α) (ok : Bool)
  | blocked
deriving DecidableEq

/-- Modelled from the spec: send — "If closed → fatal.  If any receiver
waits, directly hand v to the head receiver, mark that receiver runnable,
return.  Else if buffered and not full, copy v into buffer tail, advance,
return.  Else enqueue sender with v on send-wait FIFO; block." -/
def chanSend {α : Type} (c : GoChan α) (tid : Nat) (v : α) : GoChan α × SendOut α :=
  if c.closed then (c, SendOut.fatal)
  else
    match c.recvq with
    | r :: rest => ({ c with recvq := rest }, SendOut.delivered r v)
    | [] =>
      if c.buf.length < c.cap then ({ c with buf := c.buf ++ [v] }, SendOut.buffered)
      else ({ c with sendq := c.sendq ++ [(tid, v)] }, SendOut.blocked)

/-- Modelled from the spec: receive — "If any sender waits, copy its value
into the receiver's slot, mark sender runnable, return (v, true).  Else if
buffer non-empty, copy head out, advance ... return (v, true).  Else if
closed → return (zero(T), false).  Else enqueue receiver on recv-wait FIFO;
block."  `z` is the element-type zero value. -/
def chanRecv {α : Type} (z : α) (c : GoChan α) (tid : Nat) : GoChan α × RecvOut α :=
  match c.sendq with
  | (_, v) :: rest => ({ c with sendq := rest }, RecvOut.got v true)
  | [] =>
    match c.buf with
    | v :: rest => ({ c with buf := rest }, RecvOut.got v true)
    | [] =>
      if c.closed then (c, RecvOut.got z false)
      else ({ c with recvq := c.recvq ++ [tid] }, RecvOut.blocked)

/-- Modelled from the spec: close — "Mark closed; drain all blocked
receivers (each gets zero, ok=false and is made runnable); any blocked
senders encountered here is a fatal error", and closing a closed channel is
fatal (section 7).  `none` is the fatal case; otherwise the new state and
the `(task, zero, false)` deliveries to the drained receivers. -/
def chanClose {α : Type} (z : α) (c : GoChan α) :
    Option (GoChan α × List (Nat × α × Bool)) :=
  if c.closed then none
  else if c.sendq.isEmpty then
    some ({ c with closed := true, recvq := [] },
      c.recvq.map (fun r => (r, z, false)))
  else none

/-! ## The fan-in test (testsuit/peter.go) -/

/-- Embeds the send in `ready(index)` of peter.go: after sleeping `index`
seconds and printing `index`, the task runs `c <- 1` — the constant 1, not
the index. -/
def readySendValue (index : Nat) : Int := 1

/-- The indices `1..10` that `main` spawns `ready` with and that each task
prints. -/
def peterIndices : List Nat := (List.range 10).map (fun i => i + 1)

/-- The shared unbuffered channel `c = make(chan int)` of peter.go. -/
def peterChan0 : GoChan Int :=
  { cap := 0, buf := [], sendq := [], recvq := [], closed := false }

/-- The receive loop of peter.go's `main` against the senders: for each index
(the `index`-second sleeps serialize the sends in index order), `main`
(task 0) parks on `<-c` and the sender task runs `c <- readySendValue index`;
the value handed over is collected. -/
def peterLoop : List Nat → GoChan Int → List Int
  | [], _ => []
  | i :: rest, c =>
    let r := chanRecv 0 c 0
    let s := chanSend r.1 i (readySendValue i)
    match s.2 with
    | SendOut.delivered _ v => v :: peterLoop rest s.1
    | _ => []

/-- The ten values peter.go's `main` receives. -/
def peterReceived : List Int := peterLoop peterIndices peterChan0

/-- The ten values the spawned tasks send. -/
def peterSent : List Int := peterIndices.map readySendValue

/-! ## Finalizer table (mfinal.c)

Direct-hash table, linear scan, keys hashed by `(uintptr)k % t->max`.  The C
stores parallel `key`/`val` arrays with the sentinels `nil` (never occupied)
and `(void*)-1` (dead: formerly occupied); a `Slot` merges the two columns
structurally.  `nkey` counts non-nil `key` entries (live plus dead), `ndead`
the dead ones, exactly as the C fields do. -/

/-- A `Finalizer` record: the callback `fn` (a function pointer) and the
return-area size `nret`. -/
structure Finalizer where
  fn : Nat
  nret : Int
deriving DecidableEq

/-- One cell of the parallel `key`/`val` arrays: `key[i] == nil`,
`key[i] == (void*)-1`, or an occupied entry. -/
inductive Slot where
  | free
  | dead
  | occ (k : Nat) (v : Finalizer)
deriving DecidableEq

/-- The slot of table `tab` at index `i` (indices are always below the
table length). -/
def slotAt (tab : List Slot) (i : Nat) : Slot := tab.getD i Slot.free

/-- The `Fintab` state: the table plus the C bookkeeping fields `nkey` and
`ndead` (`max` is the table length). -/
structure Fintab where
  tab : List Slot
  nkey : Nat
  ndead : Nat
deriving DecidableEq

/-- The `max` field of a `Fintab`: the allocation size of `key`/`val`. -/
def Fintab.max (t : Fintab) : Nat := t.tab.length

/-- The initial global `static Fintab fintab`: all fields zero. -/
def fintabInit : Fintab := { tab := [], nkey := 0, ndead := 0 }

/-- The probe loop of `addfintab`: starting at index `i`, scan at most `fuel`
slots (the C runs `j = 0 .. max-1`), stopping at the first nil slot
(`wasFree = true`, `nkey++`) or dead slot (`wasFree = false`, `ndead--`).
`none` is the `runtime·throw("finalizer table inconsistent")` at loop
exhaustion. -/
def addScan (tab : List Slot) (max : Nat) : Nat → Nat → Option (Nat × Bool)
  | 0, _ => none
  | fuel + 1, i =>
    match slotAt tab i with
    | Slot.free => some (i, true)
    | Slot.dead => some (i, false)
    | Slot.occ _ _ => addScan tab max fuel ((i + 1) % max)

/-- Embeds `addfintab(t, k, v)`: probe from `k % max`, write the entry at the
first nil-or-dead slot, and update `nkey`/`ndead` as the C does.  `none` is
the "finalizer table inconsistent" throw. -/
def addfintab (t : Fintab) (k : Nat) (v : Finalizer) : Option Fintab :=
  match addScan t.tab t.max t.max (k % t.max) with
  | none => none
  | some (i, wasFree) =>
    some { tab := t.tab.set i (Slot.occ k v),
           nkey := if wasFree then t.nkey + 1 else t.nkey,
           ndead := if wasFree then t.ndead else t.ndead - 1 }

/-- Result of the `lookfintab` probe loop: a match (with its index), the nil
slot that ends an unsuccessful scan, or loop exhaustion (the "finalizer
table inconsistent" throw). -/
inductive LookRes where
  | found (v : Finalizer) (i : Nat)
  | notfound
  | inconsistent
deriving DecidableEq

/-- The probe loop of `lookfintab`: nil stops the scan with no match, a key
match returns its value and index, and dead slots do not stop the linear
scan. -/
def lookScan (tab : List Slot) (max k : Nat) : Nat → Nat → LookRes
  | 0, _ => LookRes.inconsistent
  | fuel + 1, i =>
    match slotAt tab i with
    | Slot.free => LookRes.notfound
    | Slot.dead => lookScan tab max k fuel ((i + 1) % max)
    | Slot.occ k' v =>
      if k' = k then LookRes.found v i
      else lookScan tab max k fuel ((i + 1) % max)

/-- Embeds `lookfintab(t, k, del)`: empty tables answer nil; otherwise probe
from `k % max`; on a match with `del`, the C writes `key[i] = (void*)-1`,
`val[i] = nil`, `ndead++` (leaving `nkey` alone).  `none` is the
"finalizer table inconsistent" throw. -/
def lookfintab (t : Fintab) (k : Nat) (del : Bool) :
    Option (Option Finalizer × Fintab) :=
  if t.max = 0 then some (none, t)
  else
    match lookScan t.tab t.max k t.max (k % t.max) with
    | LookRes.inconsistent => none
    | LookRes.notfound => some (none, t)
    | LookRes.found v i =>
      if del then
        some (some v, { tab := t.tab.set i Slot.dead,
                        nkey := t.nkey, ndead := t.ndead + 1 })
      else some (some v, t)

/-- The new table size the rehash in `runtime·addfinalizer` picks: `3*3*3`
from an empty table, 3 times larger when fewer than half the entries are
dead, the same size otherwise. -/
def rehashNewMax (t : Fintab) : Nat :=
  if t.max = 0 then 27
  else if t.ndead < t.nkey / 2 then 3 * t.max
  else t.max

/-- An all-nil table of the given size, as `runtime·mallocgc` returns it for
the rehash. -/
def emptyTab (max : Nat) : Fintab :=
  { tab := List.replicate max Slot.free, nkey := 0, ndead := 0 }

/-- The rehash loop of `runtime·addfinalizer`: every live entry of the old
table is re-added, in index order, into the new one.  `none` propagates the
"finalizer table inconsistent" throw of `addfintab`. -/
def rehashFold (src : List Slot) (dst : Fintab) : Option Fintab :=
  src.foldlM
    (fun acc s =>
      match s with
      | Slot.occ k v => addfintab acc k v
      | _ => some acc)
    dst

/-- The throws `runtime·addfinalizer` / `runtime·getfinalizer` can raise.  An
error carries the global `fintab` as of the throw (the throw aborts the
process, so later writes never happen). -/
inductive FinThrow where
  | invalidPointer
  | doubleFinalizer
  | inconsistent
deriving DecidableEq

/-- Embeds `runtime·addfinalizer(p, f, nret)`.  `isHeapBase p` is the oracle
for `runtime·mlookup(p, &base, nil, nil) && p == base` (whether `p` is the
base address of a live heap allocation); `f = none` is a nil callback (the
removal form).  Follows mfinal.c: validity check, nil-`f` removal, double
check, the 3/4-threshold rehash, insertion.  (`runtime·setblockspecial`
touches the span bitmap, not this table, and is omitted.) -/
def runtimeAddfinalizer (isHeapBase : Nat → Bool) (t : Fintab) (p : Nat)
    (f : Option Nat) (nret : Int) : Except (FinThrow × Fintab) Fintab :=
  if ¬ isHeapBase p then Except.error (FinThrow.invalidPointer, t)
  else
    match f with
    | none =>
      match lookfintab t p true with
      | none => Except.error (FinThrow.inconsistent, t)
      | some r => Except.ok r.2
    | some fn =>
      match lookfintab t p false with
      | none => Except.error (FinThrow.inconsistent, t)
      | some (some _, _) => Except.error (FinThrow.doubleFinalizer, t)
      | some (none, _) =>
        let step : Except (FinThrow × Fintab) Fintab :=
          if t.max / 2 + t.max / 4 ≤ t.nkey then
            match rehashFold t.tab (emptyTab (rehashNewMax t)) with
            | none => Except.error (FinThrow.inconsistent, t)
            | some tn => Except.ok tn
          else Except.ok t
        match step with
        | Except.error e => Except.error e
        | Except.ok t2 =>
          match addfintab t2 p { fn := fn, nret := nret } with
          | none => Except.error (FinThrow.inconsistent, t2)
          | some t3 => Except.ok t3

/-- Embeds `runtime·getfinalizer(p, del)`: `lookfintab` on the global table
under `finlock`. -/
def runtimeGetfinalizer (t : Fintab) (p : Nat) (del : Bool) :
    Except (FinThrow × Fintab) (Option Finalizer × Fintab) :=
  match lookfintab t p del with
  | none => Except.error (FinThrow.inconsistent, t)
  | some r => Except.ok r

/-- The key stored in a slot, if the slot is occupied. -/
def keyOf : Slot → Option Nat
  | Slot.occ k _ => some k
  | _ => none

/-- No key occupies two distinct slots. -/
def keysDistinct (tab : List Slot) : Prop :=
  List.Pairwise (fun s s' => keyOf s = none ∨ keyOf s ≠ keyOf s') tab

/-- Every occupied slot is reachable from its key's hash index by the linear
probe without crossing a nil slot (nil stops `lookfintab`'s scan). -/
def reachable (tab : List Slot) : Prop :=
  ∀ i, i < tab.length → ∀ k v, slotAt tab i = Slot.occ k v →
    ∃ j, j < tab.length ∧ (k % tab.length + j) % tab.length = i ∧
      ∀ j', j' < j → slotAt tab ((k % tab.length + j') % tab.length) ≠ Slot.free

/-- Count of non-nil slots (what the C `nkey` tracks). -/
def nonFree (tab : List Slot) : Nat :=
  tab.countP (fun s => decide (s ≠ Slot.free))

/-- Count of dead slots (what the C `ndead` tracks). -/
def deadCount (tab : List Slot) : Nat :=
  tab.countP (fun s => decide (s = Slot.dead))

/-- The state invariant of the finalizer table: a size the rehash produces,
exact `nkey`/`ndead` bookkeeping, occupancy at most the 3/4 rehash
threshold, no duplicated key, and every entry reachable by the probe. -/
def FinInv (t : Fintab) : Prop :=
  (t.max = 0 ∨ 27 ≤ t.max) ∧
  t.nkey = nonFree t.tab ∧
  t.ndead = deadCount t.tab ∧
  t.nkey ≤ t.max / 2 + t.max / 4 ∧
  keysDistinct t.tab ∧
  reachable t.tab

/-- One client call into mfinal.c: an install/remove, or a lookup. -/
inductive FinOp where
  | add (p : Nat) (f : Option Nat) (nret : Int)
  | get (p : Nat) (del : Bool)

/-- Run one `FinOp` against the global table. -/
def finStep (hb : Nat → Bool) (t : Fintab) :
    FinOp → Except (FinThrow × Fintab) Fintab
  | FinOp.add p f nret => runtimeAddfinalizer hb t p f nret
  | FinOp.get p del =>
    match runtimeGetfinalizer t p del with
    | Except.error e => Except.error e
    | Except.ok r => Except.ok r.2

/-- Run a sequence of client calls from a table state, stopping at the first
throw. -/
def runFin (hb : Nat → Bool) : List FinOp → Fintab → Except (FinThrow × Fintab) Fintab
  | [], t => Except.ok t
  | op :: ops, t =>
    match finStep hb t op with
    | Except.error e => Except.error e
    | Except.ok t' => runFin hb ops t'

/-- A concrete one-entry table (pointer 5 mapped to callback 7 with 2 return
bytes) used to exercise the theorems below. -/
def tabEx : Fintab :=
  { tab := (List.replicate 27 Slot.free).set 5 (Slot.occ 5 { fn := 7, nret := 2 }),
    nkey := 1, ndead := 0 }

/-- A slot the `lookfintab` scan for key `k` passes over without stopping:
dead, or occupied by a different key. -/
def passable (s : Slot) (k : Nat) : Prop :=
  s = Slot.dead ∨ ∃ k' v', s = Slot.occ k' v' ∧ k' ≠ k

/-- Key `k` occupies some slot of the table. -/
def keyIn (tab : List Slot) (k : Nat) : Prop :=
  ∃ i, i < tab.length ∧ ∃ v, slotAt tab i = Slot.occ k v

/-- Count of occupied (live) slots. -/
def occCount (tab : List Slot) : Nat :=
  tab.countP (fun s => decide (keyOf s ≠ none))

/-! # Theorems -/

/-! ## Mutex lemmas and claim C1 -/

theorem xadd32_add_one (x : Nat) (h : x + 1 < 2 ^ 32) : xadd32 x 1 = x + 1 := by
  unfold xadd32
  rw [Int.emod_eq_of_lt (by positivity) (by exact_mod_cast h)]
  omega

theorem xadd32_sub_one (x : Nat) (h1 : 1 ≤ x) (h2 : x < 2 ^ 32) :
    xadd32 x (-1) = x - 1 := by
  unfold xadd32
  rw [show (x : Int) + (-1) = ((x - 1 : Nat) : Int) by omega]
  rw [Int.emod_eq_of_lt (by positivity) (by exact_mod_cast (by omega : x - 1 < 2 ^ 32))]
  omega


theorem runLock_key_count (ops : List Bool) :
    ∀ l : Lock, lockOk l.key ops = true → l.key + nLocks ops < 2 ^ 32 →
      (runLock ops l).1.key = l.key + nLocks ops - nUnlocks ops ∧
      nUnlocks ops ≤ l.key + nLocks ops := by
  induction ops with
  | nil => intro l _ _; simp [runLock, nLocks, nUnlocks]
  | cons op ops ih =>
    intro l hok hbound
    cases op with
    | true =>
      have hk : xadd32 l.key 1 = l.key + 1 := by
        apply xadd32_add_one
        have : nLocks (true :: ops) = nLocks ops + 1 := by
          simp [nLocks, List.countP_cons]
        omega
      have hok' : lockOk (l.key + 1) ops = true := by simpa [lockOk] using hok
      have hstep : (runtime.lock l).1.key = l.key + 1 := by
        simp only [runtime.lock, hk]
        split <;> rfl
      have := ih (runtime.lock l).1 (by rw [hstep]; exact hok')
        (by rw [hstep]; simp [nLocks, List.countP_cons] at hbound ⊢; omega)
      rw [hstep] at this
      simp only [runLock]
      simp [nLocks, nUnlocks, List.countP_cons] at this ⊢
      omega
    | false =>
      have hok0 : 1 ≤ l.key ∧ lockOk (l.key - 1) ops = true := by
        simpa [lockOk] using hok
      have hk : xadd32 l.key (-1) = l.key - 1 := by
        apply xadd32_sub_one _ hok0.1
        omega
      have hstep : (runtime.unlock l).1.key = l.key - 1 := by
        simp only [runtime.unlock, hk]
        split <;> rfl
      have := ih (runtime.unlock l).1 (by rw [hstep]; exact hok0.2)
        (by rw [hstep]; simp [nLocks, List.countP_cons] at hbound ⊢; omega)
      rw [hstep] at this
      simp only [runLock]
      simp [nLocks, nUnlocks, List.countP_cons] at this ⊢
      omega

theorem lock_step_key (l : Lock) (h : l.key + 1 < 2 ^ 32) :
    (runtime.lock l).1.key = l.key + 1 ∧
    ((runtime.lock l).2 = true ↔ 1 ≤ l.key) := by
  have hk := xadd32_add_one l.key h
  unfold runtime.lock
  simp only [hk]
  split <;> rename_i hcond <;> constructor <;> simp_all <;> omega

theorem unlock_step_key (l : Lock) (h1 : 1 ≤ l.key) (h2 : l.key < 2 ^ 32) :
    (runtime.unlock l).1.key = l.key - 1 ∧
    ((runtime.unlock l).2 = true ↔ 2 ≤ l.key) := by
  have hk := xadd32_sub_one l.key h1 h2
  unfold runtime.unlock
  simp only [hk]
  split <;> rename_i hcond <;> constructor <;> simp_all <;> omega

/-- C1 (amended): the ucoresmp mutex word is not a three-state CAS cell but a
wrapping counter of holders plus waiters.  `runtime·lock` atomically
increments it and parks on the (lazily allocated) kernel semaphore exactly
when the new value exceeds 1, i.e. when a holder or waiter was already
present; `runtime·unlock` atomically decrements it and posts the semaphore —
waking exactly one waiter — exactly when the new value is still positive,
i.e. when the old value was at least two.  Along any balanced trace without
counter overflow the key equals locks minus unlocks performed. -/
theorem C1_lock_counter (l : Lock) (ops : List Bool)
    (hkey : l.key + 1 < 2 ^ 32) (hok : lockOk l.key ops = true)
    (hbound : l.key + nLocks ops < 2 ^ 32) :
    ((runtime.lock l).1.key = l.key + 1 ∧
      ((runtime.lock l).2 = true ↔ 1 ≤ l.key)) ∧
    (1 ≤ l.key → (runtime.unlock l).1.key = l.key - 1 ∧
      ((runtime.unlock l).2 = true ↔ 2 ≤ l.key)) ∧
    (runLock ops l).1.key = l.key + nLocks ops - nUnlocks ops := by
  refine ⟨lock_step_key l hkey, fun h1 => unlock_step_key l h1 (by omega), ?_⟩
  exact (runLock_key_count ops l hok hbound).1

/-- Witness for C1_lock_counter at the concrete trace lock, lock, unlock,
unlock from the zero key. -/
theorem C1_lock_counter_witness :
    (runLock [true, true, false, false] { key := 0, sema := false }).1.key =
      0 + nLocks [true, true, false, false] - nUnlocks [true, true, false, false] :=
  (C1_lock_counter { key := 0, sema := false } [true, true, false, false]
    (by decide) (by decide) (by decide)).2.2

/-- C1 as stated is refuted on the code: from the unlocked state two
`runtime·lock`s put the key at 2 (one holder, one waiter — the claimed
locked-with-waiters state); the claim's "runtime·unlock CASes to unlocked"
requires the value 0 afterwards, but `runtime·unlock` leaves 1; and a third
lock drives the value to 3, outside the claimed three-state range. -/
theorem C1_counterexample :
    (runtime.unlock ((runtime.lock ((runtime.lock
        { key := MUTEX_UNLOCKED, sema := false }).1)).1)).1.key ≠ MUTEX_UNLOCKED ∧
    ((runtime.lock ((runtime.lock ((runtime.lock
        { key := MUTEX_UNLOCKED, sema := false }).1)).1)).1.key ≠ MUTEX_UNLOCKED ∧
     (runtime.lock ((runtime.lock ((runtime.lock
        { key := MUTEX_UNLOCKED, sema := false }).1)).1)).1.key ≠ MUTEX_LOCKED ∧
     (runtime.lock ((runtime.lock ((runtime.lock
        { key := MUTEX_UNLOCKED, sema := false }).1)).1)).1.key ≠ MUTEX_SLEEPING) := by
  decide

/-! ## User semaphore: claim C10 -/

theorem asInt32_of_small (x : Nat) (h : x < 2 ^ 31) : asInt32 x = (x : Int) := by
  unfold asInt32
  rw [if_pos h]

theorem asInt32_pos_bounds (x : Nat) (h : x < 2 ^ 32) (hp : 0 < asInt32 x) :
    0 < x ∧ x < 2 ^ 31 := by
  unfold asInt32 at hp
  split at hp <;> omega

/-- C10: `runtime·usemacquire` enters the kernel wait exactly when the
atomically decremented counter is negative as an int32, `runtime·usemrelease`
posts the kernel semaphore exactly when the atomically incremented counter is
at most zero, and while the counter stays positive both operations complete
with no kernel operation. -/
theorem C10_usema_kernel (s : Usema) (hs : s.u < 2 ^ 32) :
    ((runtime.usemacquire s).2 = true ↔ asInt32 (xadd32 s.u (-1)) < 0) ∧
    ((runtime.usemrelease s).2 = true ↔ asInt32 (xadd32 s.u 1) ≤ 0) ∧
    (0 < asInt32 s.u → (runtime.usemacquire s).2 = false) ∧
    (0 < asInt32 s.u → 0 < asInt32 (runtime.usemrelease s).1.u →
      (runtime.usemrelease s).2 = false) := by
  refine ⟨?_, ?_, ?_, ?_⟩
  · unfold runtime.usemacquire
    split <;> simp_all
  · unfold runtime.usemrelease
    split <;> simp_all
  · intro hp
    obtain ⟨h1, h2⟩ := asInt32_pos_bounds s.u hs hp
    have hdec : xadd32 s.u (-1) = s.u - 1 := xadd32_sub_one s.u h1 hs
    unfold runtime.usemacquire
    simp only [hdec]
    split <;> rename_i hc
    · rw [asInt32_of_small (s.u - 1) (by omega)] at hc
      omega
    · rfl
  · intro _ hpost
    unfold runtime.usemrelease at hpost ⊢
    split <;> rename_i hc
    · rw [if_pos hc] at hpost
      dsimp only at hpost
      omega
    · rfl

/-- Witness for C10_usema_kernel at the counter value 5. -/
theorem C10_usema_kernel_witness :
    (runtime.usemacquire { u := 5, k := false }).2 = false :=
  (C10_usema_kernel { u := 5, k := false } (by decide)).2.2.1 (by decide)

/-! ## Notes: claim C2 -/

theorem notesleepRun_blocks (arrive : Nat → Bool) (hnever : ∀ i, arrive i = false) :
    ∀ fuel (n : Note), n.wakeup = false →
      runtime.notesleepRun arrive fuel n = none := by
  intro fuel
  induction fuel with
  | zero => intro n _; rfl
  | succ f ih =>
    intro n hw
    unfold runtime.notesleepRun
    simp only [hw, hnever f, if_false, Bool.false_eq_true]
    exact ih _ rfl

theorem notesleepRun_immediate (arrive : Nat → Bool) (fuel : Nat) (n : Note)
    (hw : n.wakeup = true) (hf : 0 < fuel) :
    runtime.notesleepRun arrive fuel n = some n := by
  cases fuel with
  | zero => omega
  | succ f => unfold runtime.notesleepRun; simp [hw]

theorem notesleepRun_arrival (arrive : Nat → Bool) :
    ∀ fuel (n : Note) (j : Nat), 1 ≤ j → j < fuel → arrive j = true →
      (runtime.notesleepRun arrive fuel n).isSome = true := by
  intro fuel
  induction fuel with
  | zero => intro n j _ hj _; omega
  | succ f ih =>
    intro n j hj1 hjf harr
    by_cases hw : n.wakeup = true
    · rw [notesleepRun_immediate arrive (f + 1) n hw (by omega)]
      rfl
    · rw [Bool.not_eq_true] at hw
      unfold runtime.notesleepRun
      simp only [hw, Bool.false_eq_true, if_false]
      rcases Nat.lt_or_ge j f with hlt | hge
      · exact ih _ j hj1 hlt harr
      · have hjf' : j = f := by omega
        subst hjf'
        rw [harr]
        simp only
        rw [notesleepRun_immediate arrive j _ rfl (by omega)]
        rfl

/-- C2: the note is a one-shot event.  After `runtime·noteclear` the wakeup
flag is down and, with no `runtime·notewakeup` ever arriving,
`runtime·notesleep` never returns; once the flag is up (as every
`runtime·notewakeup` leaves it) every `runtime·notesleep` returns
immediately with the note unchanged, and this persists until the next
`runtime·noteclear` resets the flag; a wakeup arriving during the sleep loop
makes the sleep return. -/
theorem C2_note_oneshot (n : Note) (arrive : Nat → Bool) (fuel : Nat) :
    ((runtime.noteclear n).wakeup = false) ∧
    ((∀ i, arrive i = false) →
      runtime.notesleepRun arrive fuel (runtime.noteclear n) = none) ∧
    ((runtime.notewakeup n).1.wakeup = true) ∧
    (n.wakeup = true → 0 < fuel →
      runtime.notesleepRun arrive fuel n = some n) ∧
    (∀ j, 1 ≤ j → j < fuel → arrive j = true →
      (runtime.notesleepRun arrive fuel n).isSome = true) := by
  refine ⟨rfl, ?_, rfl, ?_, ?_⟩
  · intro hnever
    exact notesleepRun_blocks arrive hnever fuel _ rfl
  · exact notesleepRun_immediate arrive fuel n
  · intro j hj1 hjf harr
    exact notesleepRun_arrival arrive fuel n j hj1 hjf harr

/-- Witness for C2_note_oneshot: a woken note sleeps through immediately. -/
theorem C2_note_oneshot_witness :
    runtime.notesleepRun (fun _ => false) 3
      { wakeup := true, sema := { u := 1, k := false } } =
      some { wakeup := true, sema := { u := 1, k := false } } :=
  (C2_note_oneshot { wakeup := true, sema := { u := 1, k := false } }
    (fun _ => false) 3).2.2.2.1 rfl (by decide)

/-! ## `time.sleep`: claim C7 -/

theorem norm64_of_range (x : Int) (hlo : -(2 ^ 63) ≤ x) (hhi : x < 2 ^ 63) :
    norm64 x = x := by
  unfold norm64
  rw [Int.emod_eq_of_lt (by omega) (by omega)]
  omega

theorem sleepAux_ok_ge (clock : Nat → Int) (errAt : Nat → Bool) (endT : Int) :
    ∀ fuel i t t', time.sleepAux clock errAt endT fuel i t = some (Except.ok t') →
      endT ≤ t' := by
  intro fuel
  induction fuel with
  | zero => intro i t t' h; exact absurd h (by simp [time.sleepAux])
  | succ f ih =>
    intro i t t' h
    unfold time.sleepAux at h
    split at h
    · split at h
      · exact absurd h (by simp)
      · exact ih _ _ _ h
    · rename_i hge
      simp only [Option.some.injEq, Except.ok.injEq] at h
      omega

/-- C7 is refuted as universally stated: at the start time 2^62 with the
duration 2^62 the int64 sum `end := t + ns` overflows to -2^63, the loop is
skipped, and `sleep` returns the unchanged start time, which is smaller than
the requested deadline. -/
theorem C7_counterexample :
    time.sleep (fun _ => 0) (fun _ => false) 1 (2 ^ 62) (2 ^ 62) =
      some (Except.ok (2 ^ 62)) ∧
    ¬ ((2 ^ 62 : Int) + 2 ^ 62 ≤ 2 ^ 62) := by
  constructor
  · rfl
  · decide

/-- C7 (amended): whenever the int64 sum `t + ns` does not overflow, a run of
the `sleep` helper that returns without error returns a time `t'` at or past
the requested deadline `t + ns`, re-sleeping as often as needed. -/
theorem C7_sleep_deadline (clock : Nat → Int) (errAt : Nat → Bool) (fuel : Nat)
    (t ns t' : Int) (hlo : -(2 ^ 63) ≤ t + ns) (hhi : t + ns < 2 ^ 63)
    (hrun : time.sleep clock errAt fuel t ns = some (Except.ok t')) :
    t + ns ≤ t' := by
  unfold time.sleep at hrun
  rw [norm64_of_range (t + ns) hlo hhi] at hrun
  exact sleepAux_ok_ge clock errAt (t + ns) fuel 0 t t' hrun

/-- Witness for C7_sleep_deadline: a clock jumping to 100 satisfies the
deadline 0 + 3. -/
theorem C7_sleep_deadline_witness : (0 : Int) + 3 ≤ 100 :=
  C7_sleep_deadline (fun _ => 100) (fun _ => false) 2 0 3 100
    (by decide) (by decide) (by rfl)

/-! ## `runtime·SysAlloc`: claim C8 -/

/-- C8: every byte of a block handed out by `runtime·SysAlloc(n)` is zero,
and the general allocator clears the block it returns unless the caller
passes the `no_zero` flag. -/
theorem C8_alloc_zeroed (st : MemState) (addr n i : Nat) (hi : i < n) :
    (runtime.SysAlloc st addr n).1.mem (addr + i) = 0 ∧
    (∀ flags : AllocFlags, flags.no_zero = false →
      (runtime.alloc st addr n flags).1.mem (addr + i) = 0) := by
  constructor
  · unfold runtime.SysAlloc runtime.memclr
    simp only
    rw [if_pos (by omega)]
  · intro flags hf
    unfold runtime.alloc runtime.memclr
    rw [if_neg (by simp [hf])]
    simp only
    rw [if_pos (by omega)]

/-- Witness for C8_alloc_zeroed: byte 2 of a 5-byte block at 100 over a
dirty memory. -/
theorem C8_alloc_zeroed_witness :
    (runtime.SysAlloc { mem := fun _ => 9, sys := 0 } 100 5).1.mem (100 + 2) = 0 :=
  (C8_alloc_zeroed { mem := fun _ => 9, sys := 0 } 100 5 2 (by decide)).1

/-! ## Channels: claim C5 -/

/-- C5: on a closed channel with drained buffer (closed channels have no
blocked senders, which the operations preserve) every receive returns the
element-type zero with the ok indicator false, without blocking and without
changing the channel; a receiver blocked before the close is handed
`(zero, false)` by the close's drain; and a send on a closed channel is the
fatal error. -/
theorem C5_closed_channel (α : Type) (z v : α) (c : GoChan α) (tid : Nat) :
    (c.closed = true → c.buf = [] → c.sendq = [] →
      chanRecv z c tid = (c, RecvOut.got z false)) ∧
    (c.closed = true → chanSend c tid v = (c, SendOut.fatal)) ∧
    (∀ r c' evs, chanClose z c = some (c', evs) → r ∈ c.recvq →
      (r, z, false) ∈ evs ∧ c'.closed = true ∧ c'.recvq = [] ∧ c'.sendq = []) ∧
    (c.closed = true → c.sendq = [] →
      (chanSend c tid v).1.sendq = [] ∧ (chanRecv z c tid).1.sendq = []) := by
  refine ⟨?_, ?_, ?_, ?_⟩
  · intro hcl hbuf hsq
    unfold chanRecv
    rw [hsq, hbuf]
    simp [hcl]
  · intro hcl
    unfold chanSend
    simp [hcl]
  · intro r c' evs hclose hr
    unfold chanClose at hclose
    split at hclose
    · exact absurd hclose (by simp)
    · rename_i hcl
      split at hclose
      · rename_i hsq
        simp only [Option.some.injEq, Prod.mk.injEq] at hclose
        obtain ⟨hc', hevs⟩ := hclose
        refine ⟨?_, ?_, ?_, ?_⟩
        · rw [← hevs]
          exact List.mem_map.mpr ⟨r, hr, rfl⟩
        · rw [← hc']
        · rw [← hc']
        · rw [← hc']
          simpa using hsq
      · exact absurd hclose (by simp)
  · intro hcl hsq
    constructor
    · unfold chanSend
      simp [hcl, hsq]
    · unfold chanRecv
      rw [hsq]
      cases hbuf : c.buf with
      | nil => simp [hcl, hsq]
      | cons hd tl => simp [hsq]

/-- Witness for C5_closed_channel: receiving from a closed empty Int channel
yields (0, false) and leaves it unchanged. -/
theorem C5_closed_channel_witness :
    chanRecv (0 : Int) { cap := 0, buf := [], sendq := [], recvq := [], closed := true } 3 =
      ({ cap := 0, buf := [], sendq := [], recvq := [], closed := true }, RecvOut.got 0 false) :=
  (C5_closed_channel Int 0 1
    { cap := 0, buf := [], sendq := [], recvq := [], closed := true } 3).1 rfl rfl rfl

/-! ## The peter.go fan-in: claim C6 -/

/-- C6 is refuted on the test: the tasks of peter.go send the constant 1
(`c <- 1`), not their indices, so the ten received values sum to 10, not
55. -/
theorem C6_counterexample :
    peterSent ≠ peterIndices.map (fun i => (i : Int)) ∧
    peterReceived.sum ≠ 55 := by
  constructor
  · decide
  · decide

/-- C6 (amended): the 10 spawned tasks print their indices 1..10 but each
sends the constant 1 on the shared unbuffered channel; the receiver reads
exactly 10 values, and they sum to 10. -/
theorem C6_fan_in :
    peterReceived.length = 10 ∧ peterReceived.sum = 10 ∧
    peterSent = List.replicate 10 1 ∧
    peterIndices = [1, 2, 3, 4, 5, 6, 7, 8, 9, 10] := by
  refine ⟨by decide, by decide, by decide, by decide⟩

/-! ## Finalizer table: list-level utilities -/

theorem slotAt_set_self (tab : List Slot) (i : Nat) (s : Slot) (h : i < tab.length) :
    slotAt (tab.set i s) i = s := by
  unfold slotAt
  rw [List.getD_eq_getElem?_getD, List.getElem?_set_self (by simpa using h)]
  rfl

theorem slotAt_set_ne (tab : List Slot) (i j : Nat) (s : Slot) (hne : i ≠ j) :
    slotAt (tab.set i s) j = slotAt tab j := by
  unfold slotAt
  rw [List.getD_eq_getElem?_getD, List.getElem?_set_ne hne, ← List.getD_eq_getElem?_getD]

theorem slotAt_eq_getElem (tab : List Slot) (i : Nat) (h : i < tab.length) :
    slotAt tab i = tab[i] := by
  unfold slotAt
  rw [List.getD_eq_getElem?_getD, List.getElem?_eq_getElem h]
  rfl

theorem slotAt_mem (tab : List Slot) (i : Nat) (h : i < tab.length) :
    slotAt tab i ∈ tab := by
  rw [slotAt_eq_getElem tab i h]
  exact List.getElem_mem h

theorem countP_set_add (p : Slot → Bool) :
    ∀ (tab : List Slot) (i : Nat) (s : Slot), i < tab.length →
      (tab.set i s).countP p + (if p (slotAt tab i) then 1 else 0) =
        tab.countP p + (if p s then 1 else 0) := by
  intro tab
  induction tab with
  | nil => intro i s h; simp at h
  | cons hd tl ih =>
    intro i s h
    cases i with
    | zero =>
      show (s :: tl).countP p + _ = _
      simp only [List.countP_cons]
      have hslot : slotAt (hd :: tl) 0 = hd := rfl
      rw [hslot]
      omega
    | succ n =>
      have hlen : n < tl.length := by simpa using h
      have := ih n s hlen
      show (hd :: tl.set n s).countP p + _ = _
      simp only [List.countP_cons]
      have hslot : slotAt (hd :: tl) (n + 1) = slotAt tl n := rfl
      rw [hslot]
      omega

theorem probe_cover (max start x : Nat) (hs : start < max) (hx : x < max) :
    ∃ j, j < max ∧ (start + j) % max = x := by
  rcases Nat.lt_or_ge x start with h | h
  · refine ⟨max - start + x, by omega, ?_⟩
    have heq : start + (max - start + x) = max + x := by omega
    rw [heq, Nat.add_mod_left, Nat.mod_eq_of_lt hx]
  · refine ⟨x - start, by omega, ?_⟩
    rw [Nat.add_sub_cancel' h]
    exact Nat.mod_eq_of_lt hx

theorem probe_inj (max start j1 j2 : Nat) (h1 : j1 < max) (h2 : j2 < max)
    (he : (start + j1) % max = (start + j2) % max) : j1 = j2 := by
  have h3 : j1 % max = j2 % max := Nat.ModEq.add_left_cancel' start he
  rwa [Nat.mod_eq_of_lt h1, Nat.mod_eq_of_lt h2] at h3

theorem nonFree_split : ∀ tab : List Slot, nonFree tab = occCount tab + deadCount tab := by
  intro tab
  induction tab with
  | nil => rfl
  | cons hd tl ih =>
    cases hd <;>
      simp [nonFree, occCount, deadCount, List.countP_cons, keyOf] at ih ⊢ <;>
      omega

theorem exists_free_of_lt (tab : List Slot) (h : nonFree tab < tab.length) :
    ∃ x, x < tab.length ∧ slotAt tab x = Slot.free := by
  by_contra hno
  push_neg at hno
  have hall : nonFree tab = tab.length := by
    apply List.countP_eq_length.mpr
    intro s hs
    obtain ⟨i, hi, hig⟩ := List.mem_iff_getElem.mp hs
    have hne := hno i hi
    rw [slotAt_eq_getElem tab i hi, hig] at hne
    simpa using hne
  omega

theorem no_dead_of_deadCount_zero (tab : List Slot) (h : deadCount tab = 0)
    (i : Nat) (hi : i < tab.length) : slotAt tab i ≠ Slot.dead := by
  intro hd
  have hmem : Slot.dead ∈ tab := by
    rw [← hd]
    exact slotAt_mem tab i hi
  have := List.countP_eq_zero.mp h _ hmem
  simp at this

theorem keyIn_iff_mem (tab : List Slot) (k : Nat) :
    keyIn tab k ↔ ∃ v, Slot.occ k v ∈ tab := by
  constructor
  · rintro ⟨i, hi, v, hv⟩
    refine ⟨v, ?_⟩
    rw [← hv]
    exact slotAt_mem tab i hi
  · rintro ⟨v, hv⟩
    obtain ⟨i, hi, hig⟩ := List.mem_iff_getElem.mp hv
    exact ⟨i, hi, v, by rw [slotAt_eq_getElem tab i hi, hig]⟩

theorem probe_shift (max start j : Nat) :
    ((start + 1) % max + j) % max = (start + (j + 1)) % max := by
  rw [Nat.mod_add_mod]
  congr 1
  omega

theorem addScan_total (tab : List Slot) (max : Nat) :
    ∀ fuel start, start < max →
      (∃ j, j < fuel ∧ (slotAt tab ((start + j) % max) = Slot.free ∨
        slotAt tab ((start + j) % max) = Slot.dead)) →
      ∃ r, addScan tab max fuel start = some r := by
  intro fuel
  induction fuel with
  | zero =>
    rintro start _ ⟨j, hj, _⟩
    omega
  | succ f ih =>
    rintro start hs ⟨j, hj, hslot⟩
    unfold addScan
    cases hcase : slotAt tab start with
    | free => exact ⟨(start, true), rfl⟩
    | dead => exact ⟨(start, false), rfl⟩
    | occ k v =>
      have hs' : (start + 1) % max < max := Nat.mod_lt _ (by omega)
      apply ih ((start + 1) % max) hs'
      cases j with
      | zero =>
        rw [Nat.add_zero, Nat.mod_eq_of_lt hs, hcase] at hslot
        rcases hslot with h | h <;> exact absurd h (by simp)
      | succ j' =>
        refine ⟨j', by omega, ?_⟩
        rw [probe_shift]
        exact hslot

theorem addScan_spec (tab : List Slot) (max : Nat) :
    ∀ fuel start i wf, start < max → addScan tab max fuel start = some (i, wf) →
      ∃ j, j < fuel ∧ i = (start + j) % max ∧
        ((wf = true ∧ slotAt tab i = Slot.free) ∨
         (wf = false ∧ slotAt tab i = Slot.dead)) ∧
        ∀ j', j' < j → ∃ k v, slotAt tab ((start + j') % max) = Slot.occ k v := by
  intro fuel
  induction fuel with
  | zero =>
    intro start i wf _ h
    exact absurd h (by simp [addScan])
  | succ f ih =>
    intro start i wf hs h
    unfold addScan at h
    cases hcase : slotAt tab start with
    | free =>
      rw [hcase] at h
      simp only [Option.some.injEq, Prod.mk.injEq] at h
      refine ⟨0, by omega, ?_, ?_, by omega⟩
      · rw [Nat.add_zero, Nat.mod_eq_of_lt hs, ← h.1]
      · left
        rw [← h.1, ← h.2]
        exact ⟨rfl, hcase⟩
    | dead =>
      rw [hcase] at h
      simp only [Option.some.injEq, Prod.mk.injEq] at h
      refine ⟨0, by omega, ?_, ?_, by omega⟩
      · rw [Nat.add_zero, Nat.mod_eq_of_lt hs, ← h.1]
      · right
        rw [← h.1, ← h.2]
        exact ⟨rfl, hcase⟩
    | occ k v =>
      rw [hcase] at h
      have hs' : (start + 1) % max < max := Nat.mod_lt _ (by omega)
      obtain ⟨j, hjf, hij, hcases, hpre⟩ := ih ((start + 1) % max) i wf hs' h
      refine ⟨j + 1, by omega, ?_, hcases, ?_⟩
      · rw [hij, probe_shift]
      · intro j' hj'
        cases j' with
        | zero =>
          rw [Nat.add_zero, Nat.mod_eq_of_lt hs]
          exact ⟨k, v, hcase⟩
        | succ j'' =>
          rw [← probe_shift]
          exact hpre j'' (by omega)

theorem lookScan_succ_eq (tab : List Slot) (max k f start : Nat) :
    lookScan tab max k (f + 1) start =
      match slotAt tab start with
      | Slot.free => LookRes.notfound
      | Slot.dead => lookScan tab max k f ((start + 1) % max)
      | Slot.occ k' v =>
        if k' = k then LookRes.found v start
        else lookScan tab max k f ((start + 1) % max) := rfl

theorem lookScan_found_intro (tab : List Slot) (max k : Nat) :
    ∀ j fuel start v, start < max → j < fuel →
      (∀ j', j' < j → passable (slotAt tab ((start + j') % max)) k) →
      slotAt tab ((start + j) % max) = Slot.occ k v →
      lookScan tab max k fuel start = LookRes.found v ((start + j) % max) := by
  intro j
  induction j with
  | zero =>
    intro fuel start v hs hf _ hocc
    cases fuel with
    | zero => omega
    | succ f =>
      have hpos : (start + 0) % max = start := by
        rw [Nat.add_zero]
        exact Nat.mod_eq_of_lt hs
      rw [hpos] at hocc ⊢
      simp [lookScan_succ_eq, hocc]
  | succ j ih =>
    intro fuel start v hs hf hpass hocc
    cases fuel with
    | zero => omega
    | succ f =>
      have hp0 := hpass 0 (by omega)
      have hpos : (start + 0) % max = start := by
        rw [Nat.add_zero]
        exact Nat.mod_eq_of_lt hs
      rw [hpos] at hp0
      have hs' : (start + 1) % max < max := Nat.mod_lt _ (by omega)
      have hpre : ∀ j', j' < j →
          passable (slotAt tab (((start + 1) % max + j') % max)) k := by
        intro j' hj'
        rw [probe_shift]
        exact hpass (j' + 1) (by omega)
      have hocc' : slotAt tab (((start + 1) % max + j) % max) = Slot.occ k v := by
        rw [probe_shift]
        exact hocc
      have hrec := ih f ((start + 1) % max) v hs' (by omega) hpre hocc'
      rw [probe_shift] at hrec
      rcases hp0 with hdead | ⟨k', v', hocc0, hne⟩
      · simp only [lookScan_succ_eq, hdead]
        exact hrec
      · simp only [lookScan_succ_eq, hocc0, if_neg hne]
        exact hrec

theorem lookScan_notfound_intro (tab : List Slot) (max k : Nat) :
    ∀ j fuel start, start < max → j < fuel →
      (∀ j', j' < j → passable (slotAt tab ((start + j') % max)) k) →
      slotAt tab ((start + j) % max) = Slot.free →
      lookScan tab max k fuel start = LookRes.notfound := by
  intro j
  induction j with
  | zero =>
    intro fuel start hs hf _ hfree
    cases fuel with
    | zero => omega
    | succ f =>
      have hpos : (start + 0) % max = start := by
        rw [Nat.add_zero]
        exact Nat.mod_eq_of_lt hs
      rw [hpos] at hfree
      simp [lookScan_succ_eq, hfree]
  | succ j ih =>
    intro fuel start hs hf hpass hfree
    cases fuel with
    | zero => omega
    | succ f =>
      have hp0 := hpass 0 (by omega)
      have hpos : (start + 0) % max = start := by
        rw [Nat.add_zero]
        exact Nat.mod_eq_of_lt hs
      rw [hpos] at hp0
      have hs' : (start + 1) % max < max := Nat.mod_lt _ (by omega)
      have hpre : ∀ j', j' < j →
          passable (slotAt tab (((start + 1) % max + j') % max)) k := by
        intro j' hj'
        rw [probe_shift]
        exact hpass (j' + 1) (by omega)
      have hfree' : slotAt tab (((start + 1) % max + j) % max) = Slot.free := by
        rw [probe_shift]
        exact hfree
      have hrec := ih f ((start + 1) % max) hs' (by omega) hpre hfree'
      rcases hp0 with hdead | ⟨k', v', hocc0, hne⟩
      · simp only [lookScan_succ_eq, hdead]
        exact hrec
      · simp only [lookScan_succ_eq, hocc0, if_neg hne]
        exact hrec

theorem lookScan_found_inv (tab : List Slot) (max k : Nat) :
    ∀ fuel start v i, start < max →
      lookScan tab max k fuel start = LookRes.found v i →
      ∃ j, j < fuel ∧ i = (start + j) % max ∧ slotAt tab i = Slot.occ k v ∧
        ∀ j', j' < j → passable (slotAt tab ((start + j') % max)) k := by
  intro fuel
  induction fuel with
  | zero =>
    intro start v i _ h
    exact absurd h (by simp [lookScan])
  | succ f ih =>
    intro start v i hs h
    rw [lookScan_succ_eq] at h
    have hs' : (start + 1) % max < max := Nat.mod_lt _ (by omega)
    cases hcase : slotAt tab start with
    | free =>
      rw [hcase] at h
      exact absurd h (by simp)
    | dead =>
      rw [hcase] at h
      simp only at h
      obtain ⟨j, hjf, hij, hocc, hpre⟩ := ih ((start + 1) % max) v i hs' h
      refine ⟨j + 1, by omega, by rw [hij, probe_shift], hocc, ?_⟩
      intro j' hj'
      cases j' with
      | zero =>
        have hpos : (start + 0) % max = start := by
          rw [Nat.add_zero]
          exact Nat.mod_eq_of_lt hs
        rw [hpos, hcase]
        exact Or.inl rfl
      | succ j'' =>
        rw [← probe_shift]
        exact hpre j'' (by omega)
    | occ k' v' =>
      rw [hcase] at h
      simp only at h
      by_cases hk : k' = k
      · rw [if_pos hk] at h
        simp only [LookRes.found.injEq] at h
        refine ⟨0, by omega, ?_, ?_, by omega⟩
        · rw [Nat.add_zero, Nat.mod_eq_of_lt hs, ← h.2]
        · rw [← h.2, hcase, hk, h.1]
      · rw [if_neg hk] at h
        obtain ⟨j, hjf, hij, hocc, hpre⟩ := ih ((start + 1) % max) v i hs' h
        refine ⟨j + 1, by omega, by rw [hij, probe_shift], hocc, ?_⟩
        intro j' hj'
        cases j' with
        | zero =>
          have hpos : (start + 0) % max = start := by
            rw [Nat.add_zero]
            exact Nat.mod_eq_of_lt hs
          rw [hpos, hcase]
          exact Or.inr ⟨k', v', rfl, hk⟩
        | succ j'' =>
          rw [← probe_shift]
          exact hpre j'' (by omega)

theorem keysDistinct_eq_index (tab : List Slot) (h : keysDistinct tab)
    (i1 i2 k : Nat) (v1 v2 : Finalizer) (h1 : i1 < tab.length) (h2 : i2 < tab.length)
    (ho1 : slotAt tab i1 = Slot.occ k v1) (ho2 : slotAt tab i2 = Slot.occ k v2) :
    i1 = i2 := by
  by_contra hne
  rcases Nat.lt_or_ge i1 i2 with hlt | hge
  · have hrel := List.pairwise_iff_getElem.mp h i1 i2 h1 h2 hlt
    rw [← slotAt_eq_getElem _ _ h1, ← slotAt_eq_getElem _ _ h2, ho1, ho2] at hrel
    simp [keyOf] at hrel
  · have hlt2 : i2 < i1 := by omega
    have hrel := List.pairwise_iff_getElem.mp h i2 i1 h2 h1 hlt2
    rw [← slotAt_eq_getElem _ _ h2, ← slotAt_eq_getElem _ _ h1, ho1, ho2] at hrel
    simp [keyOf] at hrel

theorem lookfintab_not_in (t : Fintab) (p : Nat) (del : Bool)
    (hfree : nonFree t.tab < t.max ∨ t.max = 0) (hnot : ¬ keyIn t.tab p) :
    lookfintab t p del = some (none, t) := by
  unfold lookfintab
  by_cases hmax : t.max = 0
  · rw [if_pos hmax]
  · rw [if_neg hmax]
    have hmaxpos : 0 < t.max := Nat.pos_of_ne_zero hmax
    have hfree' : nonFree t.tab < t.max := by
      rcases hfree with h | h
      · exact h
      · exact absurd h hmax
    obtain ⟨x, hx, hxfree⟩ := exists_free_of_lt t.tab hfree'
    have hstart : p % t.max < t.max := Nat.mod_lt _ hmaxpos
    obtain ⟨jf, hjf, hjx⟩ := probe_cover t.max (p % t.max) x hstart hx
    have hex : ∃ j, slotAt t.tab ((p % t.max + j) % t.max) = Slot.free :=
      ⟨jf, by rw [hjx]; exact hxfree⟩
    have hjm_free := Nat.find_spec hex
    have hjm_le : Nat.find hex ≤ jf := Nat.find_min' hex (by rw [hjx]; exact hxfree)
    have hjm_lt : Nat.find hex < t.max := by omega
    have hpass : ∀ j', j' < Nat.find hex →
        passable (slotAt t.tab ((p % t.max + j') % t.max)) p := by
      intro j' hj'
      have hnf := Nat.find_min hex hj'
      have hposlt : (p % t.max + j') % t.max < t.max := Nat.mod_lt _ hmaxpos
      cases hc : slotAt t.tab ((p % t.max + j') % t.max) with
      | free => exact absurd hc hnf
      | dead => exact Or.inl rfl
      | occ k' v' =>
        refine Or.inr ⟨k', v', rfl, ?_⟩
        intro hkp
        exact hnot ⟨_, hposlt, v', by rw [hc, hkp]⟩
    have hscan := lookScan_notfound_intro t.tab t.max p (Nat.find hex) t.max
      (p % t.max) hstart hjm_lt hpass hjm_free
    rw [hscan]

theorem lookfintab_found (t : Fintab) (p : Nat) (i : Nat) (v : Finalizer)
    (huniq : keysDistinct t.tab) (hreach : reachable t.tab)
    (hi : i < t.tab.length) (hocc : slotAt t.tab i = Slot.occ p v) :
    lookfintab t p false = some (some v, t) ∧
    lookfintab t p true = some (some v,
      { tab := t.tab.set i Slot.dead, nkey := t.nkey, ndead := t.ndead + 1 }) := by
  have hmaxpos : 0 < t.max := by
    have : t.max = t.tab.length := rfl
    omega
  obtain ⟨j, hjmax, hpath, hnofree⟩ := hreach i hi p v hocc
  have hstart : p % t.tab.length < t.tab.length := Nat.mod_lt _ (by omega)
  have hpass : ∀ j', j' < j →
      passable (slotAt t.tab ((p % t.tab.length + j') % t.tab.length)) p := by
    intro j' hj'
    have hposlt : (p % t.tab.length + j') % t.tab.length < t.tab.length :=
      Nat.mod_lt _ (by omega)
    cases hc : slotAt t.tab ((p % t.tab.length + j') % t.tab.length) with
    | free => exact absurd hc (hnofree j' hj')
    | dead => exact Or.inl rfl
    | occ k' v' =>
      refine Or.inr ⟨k', v', rfl, ?_⟩
      intro hkp
      rw [hkp] at hc
      have heqi : (p % t.tab.length + j') % t.tab.length = i :=
        keysDistinct_eq_index t.tab huniq _ i p v' v hposlt hi hc hocc
      rw [← hpath] at heqi
      have := probe_inj t.tab.length (p % t.tab.length) j' j (by omega) hjmax heqi
      omega
  have hocc' : slotAt t.tab ((p % t.tab.length + j) % t.tab.length) = Slot.occ p v := by
    rw [hpath]
    exact hocc
  have hscan := lookScan_found_intro t.tab t.tab.length p j t.tab.length
    (p % t.tab.length) v hstart hjmax hpass hocc'
  rw [hpath] at hscan
  have hmax_eq : t.max = t.tab.length := rfl
  constructor
  · unfold lookfintab
    rw [if_neg (by omega), hmax_eq, hscan]
    rfl
  · unfold lookfintab
    rw [if_neg (by omega), hmax_eq, hscan]
    rfl

theorem set_dead_effects (tab : List Slot) (i p : Nat) (v : Finalizer)
    (hi : i < tab.length) (hocc : slotAt tab i = Slot.occ p v)
    (huniq : keysDistinct tab) (hreach : reachable tab) :
    keysDistinct (tab.set i Slot.dead) ∧
    reachable (tab.set i Slot.dead) ∧
    ¬ keyIn (tab.set i Slot.dead) p ∧
    (∀ q, q ≠ p → (keyIn (tab.set i Slot.dead) q ↔ keyIn tab q)) ∧
    nonFree (tab.set i Slot.dead) = nonFree tab ∧
    deadCount (tab.set i Slot.dead) = deadCount tab + 1 ∧
    (∀ x q w, x < tab.length → q ≠ p → slotAt tab x = Slot.occ q w →
      slotAt (tab.set i Slot.dead) x = Slot.occ q w) := by
  have hlen : (tab.set i Slot.dead).length = tab.length := by simp
  refine ⟨?_, ?_, ?_, ?_, ?_, ?_, ?_⟩
  · apply List.pairwise_iff_getElem.mpr
    intro a b ha hb hab
    have ha' : a < tab.length := by simpa using ha
    have hb' : b < tab.length := by simpa using hb
    rw [← slotAt_eq_getElem _ a ha, ← slotAt_eq_getElem _ b hb]
    by_cases hbi : b = i
    · rw [hbi, slotAt_set_self tab i Slot.dead hi]
      cases hc : slotAt (tab.set i Slot.dead) a with
      | free => exact Or.inl rfl
      | dead => exact Or.inl rfl
      | occ q w => exact Or.inr (by simp [keyOf])
    · by_cases hai : a = i
      · rw [hai, slotAt_set_self tab i Slot.dead hi]
        exact Or.inl rfl
      · rw [slotAt_set_ne tab i a Slot.dead (fun he => hai he.symm),
          slotAt_set_ne tab i b Slot.dead (fun he => hbi he.symm)]
        have hrel := List.pairwise_iff_getElem.mp huniq a b ha' hb' hab
        rw [← slotAt_eq_getElem _ a ha', ← slotAt_eq_getElem _ b hb'] at hrel
        exact hrel
  · intro x hx q w hq
    rw [hlen] at hx
    by_cases hxi : x = i
    · subst hxi
      rw [slotAt_set_self tab x Slot.dead hx] at hq
      exact absurd hq (by simp)
    · rw [slotAt_set_ne tab i x Slot.dead (fun he => hxi he.symm)] at hq
      obtain ⟨j, hj, hpath, hnofree⟩ := hreach x hx q w hq
      refine ⟨j, by omega, by rw [hlen]; exact hpath, ?_⟩
      intro j' hj'
      rw [hlen]
      by_cases hpi : (q % tab.length + j') % tab.length = i
      · rw [hpi, slotAt_set_self tab i Slot.dead hi]
        simp
      · rw [slotAt_set_ne tab i _ Slot.dead (fun he => hpi he.symm)]
        exact hnofree j' hj'
  · rintro ⟨x, hx, w, hxocc⟩
    rw [hlen] at hx
    by_cases hxi : x = i
    · subst hxi
      rw [slotAt_set_self tab x Slot.dead hx] at hxocc
      exact absurd hxocc (by simp)
    · rw [slotAt_set_ne tab i x Slot.dead (fun he => hxi he.symm)] at hxocc
      have := keysDistinct_eq_index tab huniq x i p w v hx hi hxocc hocc
      omega
  · intro q hq
    constructor
    · rintro ⟨x, hx, w, hxocc⟩
      rw [hlen] at hx
      by_cases hxi : x = i
      · subst hxi
        rw [slotAt_set_self tab x Slot.dead hx] at hxocc
        exact absurd hxocc (by simp)
      · rw [slotAt_set_ne tab i x Slot.dead (fun he => hxi he.symm)] at hxocc
        exact ⟨x, hx, w, hxocc⟩
    · rintro ⟨x, hx, w, hxocc⟩
      have hxi : x ≠ i := by
        intro he
        rw [he, hocc] at hxocc
        exact hq (by injection hxocc with h1 _; exact h1.symm)
      refine ⟨x, by omega, w, ?_⟩
      rw [slotAt_set_ne tab i x Slot.dead (fun he => hxi he.symm)]
      exact hxocc
  · have := countP_set_add (fun s => decide (s ≠ Slot.free)) tab i Slot.dead hi
    rw [hocc] at this
    simp only [decide_not] at this
    unfold nonFree
    simp only [decide_not]
    simp at this
    omega
  · have := countP_set_add (fun s => decide (s = Slot.dead)) tab i Slot.dead hi
    rw [hocc] at this
    unfold deadCount
    simp at this
    omega
  · intro x q w hx hq hxocc
    have hxi : x ≠ i := by
      intro he
      rw [he, hocc] at hxocc
      exact hq (by injection hxocc with h1 _; exact h1.symm)
    rw [slotAt_set_ne tab i x Slot.dead (fun he => hxi he.symm)]
    exact hxocc

theorem insert_effects (tab : List Slot) (p : Nat) (v : Finalizer)
    (hmaxpos : 0 < tab.length)
    (hfree : nonFree tab < tab.length)
    (hnot : ¬ keyIn tab p)
    (huniq : keysDistinct tab) (hreach : reachable tab) :
    ∃ i wf, addScan tab tab.length tab.length (p % tab.length) = some (i, wf) ∧
      i < tab.length ∧
      ((wf = true ∧ slotAt tab i = Slot.free) ∨
       (wf = false ∧ slotAt tab i = Slot.dead)) ∧
      lookScan (tab.set i (Slot.occ p v)) tab.length p tab.length (p % tab.length) =
        LookRes.found v i ∧
      keysDistinct (tab.set i (Slot.occ p v)) ∧
      reachable (tab.set i (Slot.occ p v)) ∧
      keyIn (tab.set i (Slot.occ p v)) p ∧
      (∀ q, q ≠ p → (keyIn (tab.set i (Slot.occ p v)) q ↔ keyIn tab q)) ∧
      nonFree (tab.set i (Slot.occ p v)) = nonFree tab + (if wf = true then 1 else 0) ∧
      deadCount (tab.set i (Slot.occ p v)) + (if wf = true then 0 else 1) = deadCount tab := by
  obtain ⟨x, hx, hxfree⟩ := exists_free_of_lt tab hfree
  have hstart : p % tab.length < tab.length := Nat.mod_lt _ hmaxpos
  obtain ⟨jf, hjf, hjx⟩ := probe_cover tab.length (p % tab.length) x hstart hx
  obtain ⟨⟨i, wf⟩, hr⟩ := addScan_total tab tab.length tab.length (p % tab.length)
    hstart ⟨jf, hjf, Or.inl (by rw [hjx]; exact hxfree)⟩
  obtain ⟨j0, hj0, hij, hwf, hpre⟩ :=
    addScan_spec tab tab.length tab.length (p % tab.length) i wf hstart hr
  have hi : i < tab.length := by
    rw [hij]
    exact Nat.mod_lt _ hmaxpos
  have hprene : ∀ j', j' < j0 → ∃ k' v',
      slotAt tab ((p % tab.length + j') % tab.length) = Slot.occ k' v' ∧ k' ≠ p := by
    intro j' hj'
    obtain ⟨k', v', hocc⟩ := hpre j' hj'
    refine ⟨k', v', hocc, ?_⟩
    intro he
    exact hnot ⟨_, Nat.mod_lt _ hmaxpos, v', by rw [hocc, he]⟩
  have hprene_pos : ∀ j', j' < j0 → (p % tab.length + j') % tab.length ≠ i := by
    intro j' hj' he
    rw [hij] at he
    have := probe_inj tab.length (p % tab.length) j' j0 (by omega) hj0 he
    omega
  have hslot_self : slotAt (tab.set i (Slot.occ p v)) i = Slot.occ p v :=
    slotAt_set_self tab i _ hi
  refine ⟨i, wf, hr, hi, hwf, ?_, ?_, ?_, ⟨i, by simpa using hi, v, hslot_self⟩, ?_, ?_, ?_⟩
  · have hocc' : slotAt (tab.set i (Slot.occ p v))
        ((p % tab.length + j0) % tab.length) = Slot.occ p v := by
      rw [← hij]
      exact hslot_self
    have hpass : ∀ j', j' < j0 →
        passable (slotAt (tab.set i (Slot.occ p v))
          ((p % tab.length + j') % tab.length)) p := by
      intro j' hj'
      obtain ⟨k', v', hocc, hne⟩ := hprene j' hj'
      rw [slotAt_set_ne tab i _ _ (fun he => hprene_pos j' hj' he.symm), hocc]
      exact Or.inr ⟨k', v', rfl, hne⟩
    have hscan := lookScan_found_intro (tab.set i (Slot.occ p v)) tab.length p
      j0 tab.length (p % tab.length) v hstart hj0 hpass hocc'
    rw [← hij] at hscan
    exact hscan
  · apply List.pairwise_iff_getElem.mpr
    intro a b ha hb hab
    have ha' : a < tab.length := by simpa using ha
    have hb' : b < tab.length := by simpa using hb
    rw [← slotAt_eq_getElem _ a ha, ← slotAt_eq_getElem _ b hb]
    by_cases hbi : b = i
    · have hai : a ≠ i := by omega
      rw [hbi, hslot_self, slotAt_set_ne tab i a _ (fun he => hai he.symm)]
      cases hc : slotAt tab a with
      | free => exact Or.inl rfl
      | dead => exact Or.inl rfl
      | occ q w =>
        refine Or.inr ?_
        have hqp : q ≠ p := by
          intro he
          exact hnot ⟨a, ha', w, by rw [hc, he]⟩
        simp [keyOf, hqp]
    · by_cases hai : a = i
      · rw [hai, hslot_self, slotAt_set_ne tab i b _ (fun he => hbi he.symm)]
        cases hc : slotAt tab b with
        | free => exact Or.inr (by simp [keyOf])
        | dead => exact Or.inr (by simp [keyOf])
        | occ q w =>
          refine Or.inr ?_
          have hqp : q ≠ p := by
            intro he
            exact hnot ⟨b, hb', w, by rw [hc, he]⟩
          simp [keyOf]
          omega
      · rw [slotAt_set_ne tab i a _ (fun he => hai he.symm),
          slotAt_set_ne tab i b _ (fun he => hbi he.symm)]
        have hrel := List.pairwise_iff_getElem.mp huniq a b ha' hb' hab
        rw [← slotAt_eq_getElem _ a ha', ← slotAt_eq_getElem _ b hb'] at hrel
        exact hrel
  · intro xx hxx q w hq
    simp only [List.length_set] at hxx ⊢
    by_cases hxi : xx = i
    · rw [hxi, hslot_self] at hq
      injection hq with hq1 hq2
      refine ⟨j0, hj0, ?_, ?_⟩
      · rw [← hq1, ← hij]
        omega
      · intro j' hj'
        rw [← hq1]
        rw [slotAt_set_ne tab i _ _ (fun he => hprene_pos j' hj' he.symm)]
        obtain ⟨k', v', hocc, _⟩ := hprene j' hj'
        rw [hocc]
        simp
    · rw [slotAt_set_ne tab i xx _ (fun he => hxi he.symm)] at hq
      obtain ⟨j, hj, hpath, hnofree⟩ := hreach xx hxx q w hq
      refine ⟨j, hj, hpath, ?_⟩
      intro j' hj'
      by_cases hpi : (q % tab.length + j') % tab.length = i
      · rw [hpi, hslot_self]
        simp
      · rw [slotAt_set_ne tab i _ _ (fun he => hpi he.symm)]
        exact hnofree j' hj'
  · intro q hq
    constructor
    · rintro ⟨xx, hxx, w, hxocc⟩
      have hxx' : xx < tab.length := by simpa using hxx
      by_cases hxi : xx = i
      · rw [hxi, hslot_self] at hxocc
        injection hxocc with h1 _
        exact absurd h1.symm hq
      · rw [slotAt_set_ne tab i xx _ (fun he => hxi he.symm)] at hxocc
        exact ⟨xx, hxx', w, hxocc⟩
    · rintro ⟨xx, hxx, w, hxocc⟩
      have hxi : xx ≠ i := by
        intro he
        rw [he] at hxocc
        rcases hwf with ⟨_, hf⟩ | ⟨_, hf⟩ <;> rw [hf] at hxocc <;> exact absurd hxocc (by simp)
      refine ⟨xx, by simpa using hxx, w, ?_⟩
      rw [slotAt_set_ne tab i xx _ (fun he => hxi he.symm)]
      exact hxocc
  · have hcnt := countP_set_add (fun s => decide (s ≠ Slot.free)) tab i (Slot.occ p v) hi
    unfold nonFree
    rcases hwf with ⟨hwt, hf⟩ | ⟨hwt, hf⟩ <;> rw [hf] at hcnt <;> rw [hwt] <;>
      simp at hcnt ⊢ <;> omega
  · have hcnt := countP_set_add (fun s => decide (s = Slot.dead)) tab i (Slot.occ p v) hi
    unfold deadCount
    rcases hwf with ⟨hwt, hf⟩ | ⟨hwt, hf⟩ <;> rw [hf] at hcnt <;> rw [hwt] <;>
      simp at hcnt ⊢ <;> omega

theorem slotAt_replicate_free (M x : Nat) :
    slotAt (List.replicate M Slot.free) x = Slot.free := by
  unfold slotAt
  rw [List.getD_eq_getElem?_getD, List.getElem?_replicate]
  split <;> rfl

theorem emptyTab_facts (M : Nat) :
    (emptyTab M).tab.length = M ∧ nonFree (emptyTab M).tab = 0 ∧
    deadCount (emptyTab M).tab = 0 ∧ keysDistinct (emptyTab M).tab ∧
    reachable (emptyTab M).tab ∧ (∀ q, ¬ keyIn (emptyTab M).tab q) := by
  refine ⟨by simp [emptyTab], ?_, ?_, ?_, ?_, ?_⟩
  · apply List.countP_eq_zero.mpr
    intro s hs
    rw [List.eq_of_mem_replicate hs]
    simp
  · apply List.countP_eq_zero.mpr
    intro s hs
    rw [List.eq_of_mem_replicate hs]
    simp
  · apply List.pairwise_iff_getElem.mpr
    intro a b ha hb hab
    rw [← slotAt_eq_getElem _ a ha, ← slotAt_eq_getElem _ b hb]
    show keyOf (slotAt (List.replicate M Slot.free) a) = none ∨ _
    rw [slotAt_replicate_free]
    exact Or.inl rfl
  · intro x hx q w hq
    have : slotAt (List.replicate M Slot.free) x = Slot.occ q w := hq
    rw [slotAt_replicate_free] at this
    exact absurd this (by simp)
  · rintro q ⟨x, hx, w, hq⟩
    have : slotAt (List.replicate M Slot.free) x = Slot.occ q w := hq
    rw [slotAt_replicate_free] at this
    exact absurd this (by simp)

theorem rehashFold_cons_free (rest : List Slot) (dst : Fintab) :
    rehashFold (Slot.free :: rest) dst = rehashFold rest dst := rfl

theorem rehashFold_cons_dead (rest : List Slot) (dst : Fintab) :
    rehashFold (Slot.dead :: rest) dst = rehashFold rest dst := rfl

theorem rehashFold_cons_occ (k : Nat) (v : Finalizer) (rest : List Slot) (dst : Fintab) :
    rehashFold (Slot.occ k v :: rest) dst =
      match addfintab dst k v with
      | none => none
      | some d' => rehashFold rest d' := by
  show (addfintab dst k v).bind _ = _
  cases addfintab dst k v <;> rfl

theorem rehashFold_effects :
    ∀ (src : List Slot) (dst : Fintab),
      List.Pairwise (fun s s' => keyOf s = none ∨ keyOf s ≠ keyOf s') src →
      (∀ k v, Slot.occ k v ∈ src → ¬ keyIn dst.tab k) →
      keysDistinct dst.tab → reachable dst.tab →
      deadCount dst.tab = 0 →
      dst.nkey = nonFree dst.tab → dst.ndead = 0 →
      nonFree dst.tab + occCount src < dst.tab.length →
      ∃ t2, rehashFold src dst = some t2 ∧
        t2.tab.length = dst.tab.length ∧
        keysDistinct t2.tab ∧ reachable t2.tab ∧
        deadCount t2.tab = 0 ∧
        t2.nkey = nonFree t2.tab ∧ t2.ndead = 0 ∧
        nonFree t2.tab = nonFree dst.tab + occCount src ∧
        (∀ q, keyIn t2.tab q ↔ (keyIn dst.tab q ∨ ∃ w, Slot.occ q w ∈ src)) := by
  intro src
  induction src with
  | nil =>
    intro dst _ _ h3 h4 h5 h6 h7 _
    refine ⟨dst, rfl, rfl, h3, h4, h5, h6, h7, by simp [occCount], ?_⟩
    intro q
    simp
  | cons s rest ih =>
    intro dst hpw hnotin h3 h4 h5 h6 h7 h8
    obtain ⟨hhead, htail⟩ := List.pairwise_cons.mp hpw
    cases s with
    | free =>
      rw [rehashFold_cons_free]
      have hocc_eq : occCount (Slot.free :: rest) = occCount rest := by
        simp [occCount, List.countP_cons, keyOf]
      rw [hocc_eq] at h8
      obtain ⟨t2, hrun, hrest⟩ := ih dst htail
        (fun k v hm => hnotin k v (List.mem_cons_of_mem _ hm)) h3 h4 h5 h6 h7 h8
      refine ⟨t2, hrun, hrest.1, hrest.2.1, hrest.2.2.1, hrest.2.2.2.1,
        hrest.2.2.2.2.1, hrest.2.2.2.2.2.1, by rw [hocc_eq]; exact hrest.2.2.2.2.2.2.1, ?_⟩
      intro q
      rw [hrest.2.2.2.2.2.2.2 q]
      simp
    | dead =>
      rw [rehashFold_cons_dead]
      have hocc_eq : occCount (Slot.dead :: rest) = occCount rest := by
        simp [occCount, List.countP_cons, keyOf]
      rw [hocc_eq] at h8
      obtain ⟨t2, hrun, hrest⟩ := ih dst htail
        (fun k v hm => hnotin k v (List.mem_cons_of_mem _ hm)) h3 h4 h5 h6 h7 h8
      refine ⟨t2, hrun, hrest.1, hrest.2.1, hrest.2.2.1, hrest.2.2.2.1,
        hrest.2.2.2.2.1, hrest.2.2.2.2.2.1, by rw [hocc_eq]; exact hrest.2.2.2.2.2.2.1, ?_⟩
      intro q
      rw [hrest.2.2.2.2.2.2.2 q]
      simp
    | occ k v =>
      rw [rehashFold_cons_occ]
      have hocc_eq : occCount (Slot.occ k v :: rest) = occCount rest + 1 := by
        simp [occCount, List.countP_cons, keyOf]
      have hnotk : ¬ keyIn dst.tab k := hnotin k v (List.mem_cons_self _ _)
      have hmaxpos : 0 < dst.tab.length := by omega
      have hfree : nonFree dst.tab < dst.tab.length := by omega
      obtain ⟨i, wf, hscan, hi, hwf, hlook, huniq', hreach', hin', hiff', hnf', hdc'⟩ :=
        insert_effects dst.tab k v hmaxpos hfree hnotk h3 h4
      have hwft : wf = true := by
        rcases hwf with ⟨h, _⟩ | ⟨_, hslot⟩
        · exact h
        · exact absurd hslot (no_dead_of_deadCount_zero dst.tab h5 i hi)
      have hmax_eq : dst.max = dst.tab.length := rfl
      have hadd : addfintab dst k v = some
          { tab := dst.tab.set i (Slot.occ k v),
            nkey := dst.nkey + 1, ndead := dst.ndead } := by
        unfold addfintab
        rw [hmax_eq, hscan, hwft]
        simp
      rw [hadd]
      have hlen_set : (dst.tab.set i (Slot.occ k v)).length = dst.tab.length := by
        simp
      have hnotin' : ∀ k' v', Slot.occ k' v' ∈ rest →
          ¬ keyIn (dst.tab.set i (Slot.occ k v)) k' := by
        intro k' v' hm
        have hrel := hhead _ hm
        have hkk' : k ≠ k' := by
          simp [keyOf] at hrel
          exact hrel
        rw [hiff' k' (fun he => hkk' he.symm)]
        exact hnotin k' v' (List.mem_cons_of_mem _ hm)
      rw [hwft] at hnf' hdc'
      simp at hnf' hdc'
      obtain ⟨t2, hrun, hL, hU, hR, hD, hK, hN, hC, hQ⟩ := ih
        { tab := dst.tab.set i (Slot.occ k v), nkey := dst.nkey + 1, ndead := dst.ndead }
        htail hnotin' huniq' hreach' (by simpa [hdc'] using h5)
        (by simp only; omega) (by simp only; exact h7)
        (by simp only [hlen_set]; rw [hocc_eq] at h8; omega)
      refine ⟨t2, hrun, by rw [hL, hlen_set], hU, hR, hD, hK, hN, ?_, ?_⟩
      · rw [hC]
        simp only [hnf']
        rw [hocc_eq]
        omega
      · intro q
        rw [hQ q]
        by_cases hqk : q = k
        · subst hqk
          constructor
          · intro _
            exact Or.inr ⟨v, List.mem_cons_self _ _⟩
          · intro _
            exact Or.inl hin'
        · rw [hiff' q hqk]
          constructor
          · rintro (h | ⟨w, hw⟩)
            · exact Or.inl h
            · exact Or.inr ⟨w, List.mem_cons_of_mem _ hw⟩
          · rintro (h | ⟨w, hw⟩)
            · exact Or.inl h
            · rcases List.mem_cons.mp hw with he | hm
              · injection he with h1 _
                exact absurd h1 hqk
              · exact Or.inr ⟨w, hm⟩

theorem FinInv_free (t : Fintab) (hInv : FinInv t) :
    nonFree t.tab < t.max ∨ t.max = 0 := by
  obtain ⟨hm, hnk, _, hbd, _, _⟩ := hInv
  rcases hm with h | h
  · exact Or.inr h
  · left
    omega

theorem runtimeAddfinalizer_some_eq (hb : Nat → Bool) (t : Fintab) (p fn : Nat)
    (nret : Int) (hbp : hb p = true)
    (hlook : lookfintab t p false = some (none, t)) :
    runtimeAddfinalizer hb t p (some fn) nret =
      (match (if t.max / 2 + t.max / 4 ≤ t.nkey then
            match rehashFold t.tab (emptyTab (rehashNewMax t)) with
            | none => Except.error (FinThrow.inconsistent, t)
            | some tn => Except.ok tn
          else Except.ok t : Except (FinThrow × Fintab) Fintab) with
       | Except.error e => Except.error e
       | Except.ok t2 =>
         match addfintab t2 p { fn := fn, nret := nret } with
         | none => Except.error (FinThrow.inconsistent, t2)
         | some t3 => Except.ok t3) := by
  unfold runtimeAddfinalizer
  rw [if_neg (by simp [hbp]), hlook]

theorem runtimeAddfinalizer_insert_eq (hb : Nat → Bool) (t t2 : Fintab) (p fn : Nat)
    (nret : Int) (hbp : hb p = true)
    (hlook : lookfintab t p false = some (none, t))
    (hstep : (if t.max / 2 + t.max / 4 ≤ t.nkey then
        match rehashFold t.tab (emptyTab (rehashNewMax t)) with
        | none => Except.error (FinThrow.inconsistent, t)
        | some tn => Except.ok tn
      else Except.ok t : Except (FinThrow × Fintab) Fintab) = Except.ok t2) :
    runtimeAddfinalizer hb t p (some fn) nret =
      match addfintab t2 p { fn := fn, nret := nret } with
      | none => Except.error (FinThrow.inconsistent, t2)
      | some t3 => Except.ok t3 := by
  rw [runtimeAddfinalizer_some_eq hb t p fn nret hbp hlook, hstep]

theorem addfintab_eq_of_scan (t : Fintab) (k : Nat) (v : Finalizer) (i : Nat) (wf : Bool)
    (hscan : addScan t.tab t.tab.length t.tab.length (k % t.tab.length) = some (i, wf)) :
    addfintab t k v = some
      { tab := t.tab.set i (Slot.occ k v),
        nkey := if wf = true then t.nkey + 1 else t.nkey,
        ndead := if wf = true then t.ndead else t.ndead - 1 } := by
  unfold addfintab
  have hmax_eq : t.max = t.tab.length := rfl
  rw [hmax_eq, hscan]

theorem addfinalizer_ok (hb : Nat → Bool) (t : Fintab) (p fn : Nat) (nret : Int)
    (hInv : FinInv t) (hbp : hb p = true) (hnot : ¬ keyIn t.tab p) :
    ∃ t3, runtimeAddfinalizer hb t p (some fn) nret = Except.ok t3 ∧
      FinInv t3 ∧
      (∀ q, keyIn t3.tab q ↔ (keyIn t.tab q ∨ q = p)) ∧
      lookfintab t3 p false = some (some { fn := fn, nret := nret }, t3) := by
  obtain ⟨hmx, hnk, hnd, hbd, huq, hrc⟩ := hInv
  have hlook : lookfintab t p false = some (none, t) :=
    lookfintab_not_in t p false (FinInv_free t ⟨hmx, hnk, hnd, hbd, huq, hrc⟩) hnot
  by_cases hth : t.max / 2 + t.max / 4 ≤ t.nkey
  · -- rehash path
    have hM : 27 ≤ rehashNewMax t := by
      unfold rehashNewMax
      split
      · omega
      · split <;> omega
    have hoccD : occCount t.tab + deadCount t.tab = nonFree t.tab :=
      (nonFree_split t.tab).symm
    have hcap : occCount t.tab < rehashNewMax t ∧
        occCount t.tab + 1 ≤ rehashNewMax t / 2 + rehashNewMax t / 4 := by
      unfold rehashNewMax
      have hlenmax : t.max = t.tab.length := rfl
      split
      · rename_i h0
        have : occCount t.tab ≤ t.tab.length := List.countP_le_length _
        constructor <;> omega
      · rename_i h0
        have h27 : 27 ≤ t.max := by
          rcases hmx with h | h
          · exact absurd h h0
          · exact h
        split
        · constructor <;> omega
        · rename_i hdl
          constructor <;> omega
    obtain ⟨hEL, hENF, hEDC, hEU, hER, hEK⟩ := emptyTab_facts (rehashNewMax t)
    obtain ⟨t2, hfold, hL2, hU2, hR2, hD2, hK2, hN2, hC2, hQ2⟩ :=
      rehashFold_effects t.tab (emptyTab (rehashNewMax t)) huq
        (fun k v _ => hEK k) hEU hER hEDC (by rw [hENF]; rfl) rfl
        (by rw [hENF, hEL]; omega)
    have hnot2 : ¬ keyIn t2.tab p := by
      rw [hQ2 p]
      rintro (h | ⟨w, hw⟩)
      · exact hEK p h
      · exact hnot ((keyIn_iff_mem t.tab p).mpr ⟨w, hw⟩)
    have hlen2 : t2.tab.length = rehashNewMax t := by rw [hL2, hEL]
    obtain ⟨i, wf, hscan, hi, hwf, hlookS, hU3, hR3, hin3, hiff3, hnf3, hdc3⟩ :=
      insert_effects t2.tab p { fn := fn, nret := nret }
        (by omega) (by rw [hC2, hENF]; omega) hnot2 hU2 hR2
    have hwft : wf = true := by
      rcases hwf with ⟨h, _⟩ | ⟨_, hslot⟩
      · exact h
      · exact absurd hslot (no_dead_of_deadCount_zero t2.tab hD2 i hi)
    subst hwft
    simp at hnf3 hdc3
    have hstep : (if t.max / 2 + t.max / 4 ≤ t.nkey then
        match rehashFold t.tab (emptyTab (rehashNewMax t)) with
        | none => Except.error (FinThrow.inconsistent, t)
        | some tn => Except.ok tn
      else Except.ok t : Except (FinThrow × Fintab) Fintab) = Except.ok t2 := by
      rw [if_pos hth, hfold]
    have hadd := addfintab_eq_of_scan t2 p { fn := fn, nret := nret } i true hscan
    simp at hadd
    have heq : runtimeAddfinalizer hb t p (some fn) nret = Except.ok
        { tab := t2.tab.set i (Slot.occ p { fn := fn, nret := nret }),
          nkey := t2.nkey + 1, ndead := t2.ndead } := by
      rw [runtimeAddfinalizer_insert_eq hb t t2 p fn nret hbp hlook hstep, hadd]
    refine ⟨_, heq, ⟨?_, ?_, ?_, ?_, hU3, hR3⟩, ?_, ?_⟩
    · right
      show 27 ≤ (t2.tab.set i (Slot.occ p { fn := fn, nret := nret })).length
      rw [List.length_set]
      omega
    · show t2.nkey + 1 = nonFree (t2.tab.set i (Slot.occ p { fn := fn, nret := nret }))
      rw [hnf3, hK2]
    · show t2.ndead = deadCount (t2.tab.set i (Slot.occ p { fn := fn, nret := nret }))
      rw [hdc3, hN2, hD2]
    · show t2.nkey + 1 ≤
        (t2.tab.set i (Slot.occ p { fn := fn, nret := nret })).length / 2 +
        (t2.tab.set i (Slot.occ p { fn := fn, nret := nret })).length / 4
      rw [List.length_set, hlen2, hK2, hC2, hENF]
      omega
    · intro q
      show keyIn (t2.tab.set i (Slot.occ p { fn := fn, nret := nret })) q ↔ _
      by_cases hqp : q = p
      · subst hqp
        constructor
        · intro _
          exact Or.inr rfl
        · intro _
          exact hin3
      · rw [hiff3 q hqp, hQ2 q]
        constructor
        · rintro (h | ⟨w, hw⟩)
          · exact absurd h (hEK q)
          · exact Or.inl ((keyIn_iff_mem t.tab q).mpr ⟨w, hw⟩)
        · rintro (h | h)
          · exact Or.inr ((keyIn_iff_mem t.tab q).mp h)
          · exact absurd h hqp
    · show lookfintab
        { tab := t2.tab.set i (Slot.occ p { fn := fn, nret := nret }),
          nkey := t2.nkey + 1, ndead := t2.ndead } p false = _
      unfold lookfintab
      rw [show Fintab.max
          { tab := t2.tab.set i (Slot.occ p { fn := fn, nret := nret }),
            nkey := t2.nkey + 1, ndead := t2.ndead } =
          (t2.tab.set i (Slot.occ p { fn := fn, nret := nret })).length from rfl]
      rw [if_neg (by rw [List.length_set]; omega)]
      simp only [List.length_set]
      rw [hlookS]
      rfl
  · -- direct insertion, no rehash
    have hmax_ne : t.max ≠ 0 := by
      intro h0
      rw [h0] at hth
      simp at hth
    have h27 : 27 ≤ t.max := by
      rcases hmx with h | h
      · exact absurd h hmax_ne
      · exact h
    have hlenmax : t.max = t.tab.length := rfl
    obtain ⟨i, wf, hscan, hi, hwf, hlookS, hU3, hR3, hin3, hiff3, hnf3, hdc3⟩ :=
      insert_effects t.tab p { fn := fn, nret := nret }
        (by omega) (by omega) hnot huq hrc
    have hstep : (if t.max / 2 + t.max / 4 ≤ t.nkey then
        match rehashFold t.tab (emptyTab (rehashNewMax t)) with
        | none => Except.error (FinThrow.inconsistent, t)
        | some tn => Except.ok tn
      else Except.ok t : Except (FinThrow × Fintab) Fintab) = Except.ok t := by
      rw [if_neg hth]
    have hadd := addfintab_eq_of_scan t p { fn := fn, nret := nret } i wf hscan
    have heq : runtimeAddfinalizer hb t p (some fn) nret = Except.ok
        { tab := t.tab.set i (Slot.occ p { fn := fn, nret := nret }),
          nkey := if wf = true then t.nkey + 1 else t.nkey,
          ndead := if wf = true then t.ndead else t.ndead - 1 } := by
      rw [runtimeAddfinalizer_insert_eq hb t t p fn nret hbp hlook hstep, hadd]
    refine ⟨_, heq, ⟨?_, ?_, ?_, ?_, hU3, hR3⟩, ?_, ?_⟩
    · right
      show 27 ≤ (t.tab.set i (Slot.occ p { fn := fn, nret := nret })).length
      rw [List.length_set]
      omega
    · show (if wf = true then t.nkey + 1 else t.nkey) =
        nonFree (t.tab.set i (Slot.occ p { fn := fn, nret := nret }))
      rw [hnf3, hnk]
      cases wf <;> simp
    · show (if wf = true then t.ndead else t.ndead - 1) =
        deadCount (t.tab.set i (Slot.occ p { fn := fn, nret := nret }))
      have hdead_pos : wf = false → 1 ≤ deadCount t.tab := by
        intro hwff
        rcases hwf with ⟨hwt, _⟩ | ⟨_, hslot⟩
        · rw [hwt] at hwff
          exact absurd hwff (by simp)
        · apply List.countP_pos_iff.mpr
          refine ⟨Slot.dead, ?_, by simp⟩
          rw [← hslot]
          exact slotAt_mem t.tab i hi
      cases wf with
      | true =>
        simp at hdc3 ⊢
        rw [hnd]
        omega
      | false =>
        simp at hdc3 ⊢
        rw [hnd]
        have := hdead_pos rfl
        omega
    · show (if wf = true then t.nkey + 1 else t.nkey) ≤
        (t.tab.set i (Slot.occ p { fn := fn, nret := nret })).length / 2 +
        (t.tab.set i (Slot.occ p { fn := fn, nret := nret })).length / 4
      rw [List.length_set]
      cases wf <;> simp <;> omega
    · intro q
      show keyIn (t.tab.set i (Slot.occ p { fn := fn, nret := nret })) q ↔ _
      by_cases hqp : q = p
      · subst hqp
        constructor
        · intro _
          exact Or.inr rfl
        · intro _
          exact hin3
      · rw [hiff3 q hqp]
        constructor
        · exact fun h => Or.inl h
        · rintro (h | h)
          · exact h
          · exact absurd h hqp
    · show lookfintab
        { tab := t.tab.set i (Slot.occ p { fn := fn, nret := nret }),
          nkey := if wf = true then t.nkey + 1 else t.nkey,
          ndead := if wf = true then t.ndead else t.ndead - 1 } p false = _
      unfold lookfintab
      rw [show Fintab.max
          { tab := t.tab.set i (Slot.occ p { fn := fn, nret := nret }),
            nkey := if wf = true then t.nkey + 1 else t.nkey,
            ndead := if wf = true then t.ndead else t.ndead - 1 } =
          (t.tab.set i (Slot.occ p { fn := fn, nret := nret })).length from rfl]
      rw [if_neg (by rw [List.length_set]; omega)]
      simp only [List.length_set]
      rw [hlookS]
      rfl

theorem getfinalizer_not_in (t : Fintab) (p : Nat) (del : Bool) (hInv : FinInv t)
    (hnot : ¬ keyIn t.tab p) :
    runtimeGetfinalizer t p del = Except.ok (none, t) := by
  unfold runtimeGetfinalizer
  rw [lookfintab_not_in t p del (FinInv_free t hInv) hnot]

theorem getfinalizer_nodel_found (t : Fintab) (p i : Nat) (v : Finalizer)
    (hInv : FinInv t) (hi : i < t.tab.length) (hocc : slotAt t.tab i = Slot.occ p v) :
    runtimeGetfinalizer t p false = Except.ok (some v, t) := by
  obtain ⟨_, _, _, _, huq, hrc⟩ := hInv
  unfold runtimeGetfinalizer
  rw [(lookfintab_found t p i v huq hrc hi hocc).1]

theorem del_record_facts (t : Fintab) (p i : Nat) (v : Finalizer) (hInv : FinInv t)
    (hi : i < t.tab.length) (hocc : slotAt t.tab i = Slot.occ p v) :
    FinInv { tab := t.tab.set i Slot.dead, nkey := t.nkey, ndead := t.ndead + 1 } ∧
    ¬ keyIn (t.tab.set i Slot.dead) p ∧
    (∀ q, q ≠ p → (keyIn (t.tab.set i Slot.dead) q ↔ keyIn t.tab q)) ∧
    (∀ iq q w, iq < t.tab.length → q ≠ p → slotAt t.tab iq = Slot.occ q w →
      slotAt (t.tab.set i Slot.dead) iq = Slot.occ q w) := by
  obtain ⟨hmx, hnk, hnd, hbd, huq, hrc⟩ := hInv
  obtain ⟨hU', hR', hnotin', hif', hNF', hDC', hkeep⟩ :=
    set_dead_effects t.tab i p v hi hocc huq hrc
  have h27 : 27 ≤ t.max := by
    rcases hmx with h | h
    · have : t.max = t.tab.length := rfl
      omega
    · exact h
  refine ⟨⟨?_, ?_, ?_, ?_, hU', hR'⟩, hnotin', hif', hkeep⟩
  · right
    show 27 ≤ (t.tab.set i Slot.dead).length
    rw [List.length_set]
    exact h27
  · show t.nkey = nonFree (t.tab.set i Slot.dead)
    rw [hNF', hnk]
  · show t.ndead + 1 = deadCount (t.tab.set i Slot.dead)
    rw [hDC', hnd]
  · show t.nkey ≤ (t.tab.set i Slot.dead).length / 2 + (t.tab.set i Slot.dead).length / 4
    rw [List.length_set]
    have : t.max = t.tab.length := rfl
    omega

theorem getfinalizer_del_found (t : Fintab) (p i : Nat) (v : Finalizer)
    (hInv : FinInv t) (hi : i < t.tab.length) (hocc : slotAt t.tab i = Slot.occ p v) :
    runtimeGetfinalizer t p true = Except.ok (some v,
      { tab := t.tab.set i Slot.dead, nkey := t.nkey, ndead := t.ndead + 1 }) := by
  obtain ⟨_, _, _, _, huq, hrc⟩ := hInv
  unfold runtimeGetfinalizer
  rw [(lookfintab_found t p i v huq hrc hi hocc).2]

theorem addfinalizer_none_eq (hb : Nat → Bool) (t : Fintab) (p : Nat) (nret : Int)
    (hbp : hb p = true) :
    runtimeAddfinalizer hb t p none nret =
      match lookfintab t p true with
      | none => Except.error (FinThrow.inconsistent, t)
      | some r => Except.ok r.2 := by
  unfold runtimeAddfinalizer
  rw [if_neg (by simp [hbp])]

theorem addfinalizer_none_ok (hb : Nat → Bool) (t : Fintab) (p : Nat) (nret : Int)
    (hInv : FinInv t) (hbp : hb p = true) :
    ∃ t', runtimeAddfinalizer hb t p none nret = Except.ok t' ∧ FinInv t' ∧
      ¬ keyIn t'.tab p ∧
      runtimeGetfinalizer t' p false = Except.ok (none, t') := by
  by_cases hkey : keyIn t.tab p
  · obtain ⟨i, hi, v, hocc⟩ := hkey
    obtain ⟨hInv', hnotin', _, _⟩ := del_record_facts t p i v hInv hi hocc
    obtain ⟨_, _, _, _, huq, hrc⟩ := hInv
    refine ⟨_, ?_, hInv', hnotin', ?_⟩
    · rw [addfinalizer_none_eq hb t p nret hbp,
        (lookfintab_found t p i v huq hrc hi hocc).2]
    · exact getfinalizer_not_in _ p false hInv' hnotin'
  · refine ⟨t, ?_, hInv, hkey, ?_⟩
    · rw [addfinalizer_none_eq hb t p nret hbp,
        lookfintab_not_in t p true (FinInv_free t hInv) hkey]
    · exact getfinalizer_not_in t p false hInv hkey

theorem FinInv_init : FinInv fintabInit :=
  ⟨Or.inl rfl, rfl, rfl, Nat.le_refl 0, List.Pairwise.nil,
   fun i hi => absurd hi (Nat.not_lt_zero i)⟩

theorem getfinalizer_total (t : Fintab) (p : Nat) (del : Bool) (hInv : FinInv t) :
    ∃ r, runtimeGetfinalizer t p del = Except.ok r := by
  by_cases hkey : keyIn t.tab p
  · obtain ⟨i, hi, v, hocc⟩ := hkey
    cases del with
    | false => exact ⟨_, getfinalizer_nodel_found t p i v hInv hi hocc⟩
    | true => exact ⟨_, getfinalizer_del_found t p i v hInv hi hocc⟩
  · exact ⟨_, getfinalizer_not_in t p del hInv hkey⟩

theorem addfinalizer_classified (hb : Nat → Bool) (t : Fintab) (p : Nat)
    (f : Option Nat) (nret : Int) (hInv : FinInv t) :
    (∃ t', runtimeAddfinalizer hb t p f nret = Except.ok t' ∧ FinInv t') ∨
    runtimeAddfinalizer hb t p f nret = Except.error (FinThrow.invalidPointer, t) ∨
    runtimeAddfinalizer hb t p f nret = Except.error (FinThrow.doubleFinalizer, t) := by
  by_cases hbp : hb p = true
  · cases f with
    | none =>
      left
      obtain ⟨t', heq, hInv', _, _⟩ := addfinalizer_none_ok hb t p nret hInv hbp
      exact ⟨t', heq, hInv'⟩
    | some fn =>
      by_cases hkey : keyIn t.tab p
      · right
        right
        obtain ⟨i, hi, v, hocc⟩ := hkey
        obtain ⟨_, _, _, _, huq, hrc⟩ := hInv
        unfold runtimeAddfinalizer
        rw [if_neg (by simp [hbp]), (lookfintab_found t p i v huq hrc hi hocc).1]
      · left
        obtain ⟨t3, heq, hInv3, _, _⟩ := addfinalizer_ok hb t p fn nret hInv hbp hkey
        exact ⟨t3, heq, hInv3⟩
  · right
    left
    unfold runtimeAddfinalizer
    rw [if_pos (by simpa using hbp)]

theorem finStep_get_eq (hb : Nat → Bool) (t : Fintab) (p : Nat) (del : Bool) :
    finStep hb t (FinOp.get p del) =
      match runtimeGetfinalizer t p del with
      | Except.error e => Except.error e
      | Except.ok r => Except.ok r.2 := rfl

theorem finStep_add_eq (hb : Nat → Bool) (t : Fintab) (p : Nat) (f : Option Nat)
    (nret : Int) :
    finStep hb t (FinOp.add p f nret) = runtimeAddfinalizer hb t p f nret := rfl

theorem finStep_classified (hb : Nat → Bool) (t : Fintab) (op : FinOp)
    (hInv : FinInv t) :
    (∃ t', finStep hb t op = Except.ok t' ∧ FinInv t') ∨
    (finStep hb t op = Except.error (FinThrow.invalidPointer, t) ∨
     finStep hb t op = Except.error (FinThrow.doubleFinalizer, t)) := by
  cases op with
  | get p del =>
    left
    by_cases hkey : keyIn t.tab p
    · obtain ⟨i, hi, v, hocc⟩ := hkey
      cases del with
      | false =>
        refine ⟨t, ?_, hInv⟩
        rw [finStep_get_eq, getfinalizer_nodel_found t p i v hInv hi hocc]
      | true =>
        obtain ⟨hInv', _, _, _⟩ := del_record_facts t p i v hInv hi hocc
        refine ⟨_, ?_, hInv'⟩
        rw [finStep_get_eq, getfinalizer_del_found t p i v hInv hi hocc]
    · refine ⟨t, ?_, hInv⟩
      rw [finStep_get_eq, getfinalizer_not_in t p del hInv hkey]
  | add p f nret =>
    rcases addfinalizer_classified hb t p f nret hInv with ⟨t', heq, hInv'⟩ | he | he
    · exact Or.inl ⟨t', by rw [finStep_add_eq]; exact heq, hInv'⟩
    · exact Or.inr (Or.inl (by rw [finStep_add_eq]; exact he))
    · exact Or.inr (Or.inr (by rw [finStep_add_eq]; exact he))

theorem runFin_no_inconsistent (hb : Nat → Bool) :
    ∀ ops (t : Fintab), FinInv t → ∀ e tf,
      runFin hb ops t = Except.error (e, tf) →
      e = FinThrow.invalidPointer ∨ e = FinThrow.doubleFinalizer := by
  intro ops
  induction ops with
  | nil =>
    intro t _ e tf h
    exact absurd h (by simp [runFin])
  | cons op ops ih =>
    intro t hInv e tf h
    unfold runFin at h
    rcases finStep_classified hb t op hInv with ⟨t', hok, hInv'⟩ | herr
    · rw [hok] at h
      exact ih t' hInv' e tf h
    · rcases herr with he | he
      · rw [he] at h
        simp only [Except.error.injEq, Prod.mk.injEq] at h
        exact Or.inl h.1.symm
      · rw [he] at h
        simp only [Except.error.injEq, Prod.mk.injEq] at h
        exact Or.inr h.1.symm

/-- C3: `runtime·addfinalizer(p, f, nret)` with non-nil `f` throws
"addfinalizer on invalid pointer" when `p` is not the base address of a live
heap allocation, and "double finalizer" when a finalizer is already
installed for `p` (the non-deleting `lookfintab` probe finds one); in both
error cases the table carried at the throw is the original, unchanged one. -/
theorem C3_addfinalizer_errors (hb : Nat → Bool) (t : Fintab) (p fn : Nat)
    (nret : Int) :
    (hb p = false → runtimeAddfinalizer hb t p (some fn) nret =
      Except.error (FinThrow.invalidPointer, t)) ∧
    (∀ e rest, hb p = true → lookfintab t p false = some (some e, rest) →
      runtimeAddfinalizer hb t p (some fn) nret =
      Except.error (FinThrow.doubleFinalizer, t)) := by
  constructor
  · intro hbf
    unfold runtimeAddfinalizer
    rw [if_pos (by simp [hbf])]
  · intro e rest hbp hfound
    unfold runtimeAddfinalizer
    rw [if_neg (by simp [hbp]), hfound]

/-- Witness for C3_addfinalizer_errors: pointer 5 with a finalizer already
installed in the concrete table, under a failing and a passing heap check. -/
theorem C3_addfinalizer_errors_witness :
    runtimeAddfinalizer (fun _ => false) tabEx 5 (some 9) 0 =
      Except.error (FinThrow.invalidPointer, tabEx) ∧
    runtimeAddfinalizer (fun _ => true) tabEx 5 (some 9) 0 =
      Except.error (FinThrow.doubleFinalizer, tabEx) :=
  ⟨(C3_addfinalizer_errors (fun _ => false) tabEx 5 9 0).1 rfl,
   (C3_addfinalizer_errors (fun _ => true) tabEx 5 9 0).2
     { fn := 7, nret := 2 } tabEx rfl (by decide)⟩

/-- C4: the finalizer table is a map from heap base pointers to finalizer
records.  Installing a finalizer for an absent pointer `p` succeeds and
`runtime·getfinalizer(p)` then returns a `Finalizer` whose `fn` and `nret`
equal the registered ones; after removal — `runtime·addfinalizer(p, nil, ·)`
or `runtime·getfinalizer(p, del)` — lookups of `p` return nil; and removal
tombstones the slot (`key[i] = (void*)-1`), so any other installed key,
colliding with `p` or not, is still found with its value afterwards. -/
theorem C4_fintab_map (hb : Nat → Bool) (t : Fintab) (p fn : Nat) (nret : Int)
    (hInv : FinInv t) (hbp : hb p = true) :
    (¬ keyIn t.tab p →
      ∃ t3, runtimeAddfinalizer hb t p (some fn) nret = Except.ok t3 ∧
        runtimeGetfinalizer t3 p false =
          Except.ok (some { fn := fn, nret := nret }, t3)) ∧
    (∀ t', runtimeAddfinalizer hb t p none nret = Except.ok t' →
      runtimeGetfinalizer t' p false = Except.ok (none, t')) ∧
    (∀ r t', runtimeGetfinalizer t p true = Except.ok (r, t') →
      runtimeGetfinalizer t' p false = Except.ok (none, t')) ∧
    (∀ q w i, q ≠ p → i < t.tab.length → slotAt t.tab i = Slot.occ q w →
      ∀ r t', runtimeGetfinalizer t p true = Except.ok (r, t') →
        runtimeGetfinalizer t' q false = Except.ok (some w, t')) := by
  refine ⟨?_, ?_, ?_, ?_⟩
  · intro hnot
    obtain ⟨t3, heq, _, _, hlook3⟩ := addfinalizer_ok hb t p fn nret hInv hbp hnot
    refine ⟨t3, heq, ?_⟩
    unfold runtimeGetfinalizer
    rw [hlook3]
  · intro t' heq'
    obtain ⟨t'', heq'', _, hnotin'', hget''⟩ :=
      addfinalizer_none_ok hb t p nret hInv hbp
    rw [heq''] at heq'
    injection heq' with h
    rw [← h]
    exact hget''
  · intro r t' heq'
    by_cases hkey : keyIn t.tab p
    · obtain ⟨i, hi, v, hocc⟩ := hkey
      obtain ⟨hInv', hnotin', _, _⟩ := del_record_facts t p i v hInv hi hocc
      rw [getfinalizer_del_found t p i v hInv hi hocc] at heq'
      injection heq' with h
      injection h with h1 h2
      rw [← h2]
      exact getfinalizer_not_in _ p false hInv' hnotin'
    · rw [getfinalizer_not_in t p true hInv hkey] at heq'
      injection heq' with h
      injection h with h1 h2
      rw [← h2]
      exact getfinalizer_not_in t p false hInv hkey
  · intro q w i hq hi hocc_q r t' heq'
    by_cases hkey : keyIn t.tab p
    · obtain ⟨ip, hip, v, hoccp⟩ := hkey
      obtain ⟨hInv', hnotin', _, hkeep⟩ := del_record_facts t p ip v hInv hip hoccp
      rw [getfinalizer_del_found t p ip v hInv hip hoccp] at heq'
      injection heq' with h
      injection h with h1 h2
      rw [← h2]
      refine getfinalizer_nodel_found _ q i w hInv' ?_ (hkeep i q w hi hq hocc_q)
      show i < (t.tab.set ip Slot.dead).length
      rw [List.length_set]
      exact hi
    · rw [getfinalizer_not_in t p true hInv hkey] at heq'
      injection heq' with h
      injection h with h1 h2
      rw [← h2]
      exact getfinalizer_nodel_found t q i w hInv hi hocc_q

/-- Witness for C4_fintab_map: installing finalizer 7 (2 return bytes) for
pointer 5 in the initial empty table and reading it back. -/
theorem C4_fintab_map_witness :
    ∃ t3, runtimeAddfinalizer (fun _ => true) fintabInit 5 (some 7) 2 =
        Except.ok t3 ∧
      runtimeGetfinalizer t3 5 false =
        Except.ok (some { fn := 7, nret := 2 }, t3) :=
  (C4_fintab_map (fun _ => true) fintabInit 5 7 2
      ⟨Or.inl rfl, rfl, rfl, Nat.le_refl 0, List.Pairwise.nil,
       fun i hi => absurd hi (Nat.not_lt_zero i)⟩ rfl).1
    (fun h => absurd h.choose_spec.1 (Nat.not_lt_zero h.choose))

/-- C9: the table is kept at most 3/4 full — `runtime·addfinalizer` rehashes
exactly when `nkey >= max/2 + max/4`, into a table of size 27 from an empty
one and 3 times larger when fewer than half the entries are dead — and
consequently the linear scans of `addfintab` and `lookfintab` always stop at
a free slot or a match: `runtime·getfinalizer` always returns, and along any
sequence of calls from the initial table the only throws are "addfinalizer
on invalid pointer" and "double finalizer", never "finalizer table
inconsistent". -/
theorem C9_fintab_safety (hb : Nat → Bool) (ops : List FinOp) (t : Fintab) :
    (FinInv t → ∀ p del, ∃ r, runtimeGetfinalizer t p del = Except.ok r) ∧
    (FinInv t → ∀ p f nret,
      (∃ t', runtimeAddfinalizer hb t p f nret = Except.ok t') ∨
      runtimeAddfinalizer hb t p f nret =
        Except.error (FinThrow.invalidPointer, t) ∨
      runtimeAddfinalizer hb t p f nret =
        Except.error (FinThrow.doubleFinalizer, t)) ∧
    (∀ e tf, runFin hb ops fintabInit = Except.error (e, tf) →
      e = FinThrow.invalidPointer ∨ e = FinThrow.doubleFinalizer) ∧
    rehashNewMax fintabInit = 27 ∧
    (∀ t0 : Fintab, t0.max ≠ 0 → t0.ndead < t0.nkey / 2 →
      rehashNewMax t0 = 3 * t0.max) := by
  refine ⟨?_, ?_, ?_, rfl, ?_⟩
  · intro hInv p del
    exact getfinalizer_total t p del hInv
  · intro hInv p f nret
    rcases addfinalizer_classified hb t p f nret hInv with ⟨t', heq, _⟩ | he | he
    · exact Or.inl ⟨t', heq⟩
    · exact Or.inr (Or.inl he)
    · exact Or.inr (Or.inr he)
  · intro e tf h
    exact runFin_no_inconsistent hb ops fintabInit FinInv_init e tf h
  · intro t0 h0 hdl
    unfold rehashNewMax
    rw [if_neg h0, if_pos hdl]

/-- Witness for C9_fintab_safety: a lookup in the initial table returns. -/
theorem C9_fintab_safety_witness :
    ∃ r, runtimeGetfinalizer fintabInit 5 false = Except.ok r :=
  (C9_fintab_safety (fun _ => true) [] fintabInit).1
    ⟨Or.inl rfl, rfl, rfl, Nat.le_refl 0, List.Pairwise.nil,
     fun i hi => absurd hi (Nat.not_lt_zero i)⟩ 5 false
